import Mathlib

/-!
Verification of the git2feed update-generation pipeline (`src/generate.js`,
the `generateUpdates` entry point together with its local helpers
`defaultKeep`, `keepMsg`, `processMessage`, and the grouping / parsing /
rendering code inside `generateUpdates`).

Modelling conventions:

* Strings are modelled as `List Char`.  JavaScript string primitives used by
  the source (`trim`, `split`, `toLowerCase`, `startsWith`, regex replace
  with the concrete patterns appearing in the source) are given explicit
  executable models below, each named after the operation it embeds.
* The file system is a record of the four output files.  File contents are
  modelled structurally (parsed form); `JSON.stringify` with a fixed layout
  is deterministic and injective on this data, so structural equality of the
  models coincides with byte equality of the real files, and structural
  inequality with byte inequality.
* Wall-clock time (`new Date()` / `toISOString`) is an explicit `now`
  parameter of the run.
* Third-party dependencies that are not part of this repository are
  abstracted as parameters: the compiled user keep-pattern
  (`new RegExp(keepPattern, "i")`, an opaque predicate `userKeep`), the
  `feed` library's acceptance of a block date (`dateOk`), the commit list
  returned by `simple-git` (`fetchRes`, `none` modelling a fetch-stage
  failure such as `checkIsRepo()` returning false), and the
  `date-fns`-formatted `yyyy-MM-dd` key of a commit (`dateKey` field).
* `Array.prototype.sort` with the comparator
  `(a, b) => b[0].localeCompare(a[0])` is modelled by an insertion sort with
  the lexicographic comparator `ltStr`; on the pairwise-distinct keys the
  source sorts, every comparison sort agrees, and `localeCompare` on
  ASCII `yyyy-MM-dd` strings is the lexicographic order.
-/

/-- JavaScript whitespace (the ASCII part), as used by `\s`, `trim`. -/
def isWS (c : Char) : Bool :=
  c = ' ' || c = '\t' || c = '\n' || c = '\r' || c = '\x0b' || c = '\x0c'

/-- Model of `String.prototype.toLowerCase` (ASCII-adequate). -/
def lowerChars (s : List Char) : List Char :=
  s.map Char.toLower

/-- Drop trailing whitespace. -/
def trimEnd (s : List Char) : List Char :=
  (s.reverse.dropWhile isWS).reverse

/-- Model of `String.prototype.trim`. -/
def trimChars (s : List Char) : List Char :=
  trimEnd (s.dropWhile isWS)

/-- Boolean prefix test: `startsWithL pat s` iff `s` starts with `pat`.
Model of `String.prototype.startsWith`. -/
def startsWithL : List Char → List Char → Bool
  | [], _ => true
  | _ :: _, [] => false
  | p :: ps, c :: cs => p == c && startsWithL ps cs

/-- Split on a single literal character; model of `split(",")`, `split("\n")`.
`splitCharAux sep l acc` carries the reversed current field in `acc`. -/
def splitCharAux (sep : Char) : List Char → List Char → List (List Char)
  | [], acc => [acc.reverse]
  | c :: rest, acc =>
    if c == sep then acc.reverse :: splitCharAux sep rest []
    else splitCharAux sep rest (c :: acc)

/-- Model of `s.split("\n")`. -/
def splitNl (s : List Char) : List (List Char) :=
  splitCharAux '\n' s []

/-- Model of `s.split(",")`. -/
def splitComma (s : List Char) : List (List Char) :=
  splitCharAux ',' s []

/-- First-occurrence deduplication; model of `Array.from(new Set(xs))` and of
the `Set` built from the persisted seen list (JavaScript `Set` iterates in
insertion order). -/
def dedupAux {α : Type} [DecidableEq α] (seen : List α) : List α → List α
  | [] => []
  | a :: rest => if a ∈ seen then dedupAux seen rest else a :: dedupAux (a :: seen) rest

/-- Strict lexicographic order on char lists; model of a negative
`a.localeCompare(b)` result for the ASCII strings the source compares. -/
def ltStr : List Char → List Char → Bool
  | [], [] => false
  | [], _ :: _ => true
  | _ :: _, [] => false
  | a :: as, b :: bs => if a < b then true else if b < a then false else ltStr as bs

/-- Case-insensitive prefix test (regex `i` flag, ASCII-adequate). -/
def ciStarts : List Char → List Char → Bool
  | [], _ => true
  | _ :: _, [] => false
  | t :: ts, c :: cs => (t.toLower == c.toLower) && ciStarts ts cs

/-- One pass of `String.prototype.replace(new RegExp(escapedTerm, "gi"), repl)`
for a literal term: scan left to right, replace each (non-overlapping)
case-insensitive occurrence.  Fuel is the length of the subject string. -/
def replaceCIAux (term repl : List Char) : Nat → List Char → List Char
  | 0, s => s
  | _ + 1, [] => []
  | fuel + 1, c :: rest =>
    if ciStarts term (c :: rest) then
      repl ++ replaceCIAux term repl fuel ((c :: rest).drop term.length)
    else
      c :: replaceCIAux term repl fuel rest

/-- Model of the source's global case-insensitive literal replacement
(the term is regex-escaped in the source, hence matched literally; the
source never builds this regex from an empty term because terms are
filtered with `filter(Boolean)`). -/
def replaceCI (s term repl : List Char) : List Char :=
  if term = [] then s else replaceCIAux term repl s.length s

/-- Model of `processed.replace(/^\s*\[[^\]]*\](?:\s*:)?\s*/, "")`:
strip one leading bracket group, an optional following colon, and the
surrounding whitespace; if the regex does not match, the string is
returned unchanged. -/
def stripBranchTag (s : List Char) : List Char :=
  match s.dropWhile isWS with
  | '[' :: rest =>
    match rest.dropWhile (fun c => !(c == ']')) with
    | ']' :: rest2 =>
      match rest2.dropWhile isWS with
      | ':' :: rest3 => rest3.dropWhile isWS
      | _ => rest2.dropWhile isWS
    | _ => s
  | _ => s

/-- Model of `options.confidential.split(",").map(toLowerCase).filter(Boolean)`
(an absent option and the empty string are both JavaScript-falsy, modelled
by the empty list). -/
def mkTerms (s : List Char) : List (List Char) :=
  if s = [] then []
  else ((splitComma s).map lowerChars).filter (fun t => t ≠ [])

/-- The literal replacement marker `--confidential--`. -/
def confMarker : List Char :=
  "--confidential--".toList

/-- Embedding of `processMessage` from `src/generate.js`: branch-strip, then
confidential replacement (terms in order), then hide deletion (terms in
order), then trim. -/
def processMessage (stripBranch : Bool) (confTerms hideTerms : List (List Char))
    (msg : List Char) : List Char :=
  let p1 := if stripBranch then stripBranchTag msg else msg
  let p2 := if confTerms ≠ [] then confTerms.foldl (fun acc t => replaceCI acc t confMarker) p1 else p1
  let p3 := if hideTerms ≠ [] then hideTerms.foldl (fun acc t => replaceCI acc t []) p2 else p2
  trimChars p3

/-- Regex word character (`\w`): `[A-Za-z0-9_]`. -/
def isWordChar (c : Char) : Bool :=
  ('a' ≤ c && c ≤ 'z') || ('A' ≤ c && c ≤ 'Z') || ('0' ≤ c && c ≤ '9') || c = '_'

/-- Test `startsWord s w`: `s` starts with `w` followed by a word boundary
(`\b`): end of string or a non-word character. -/
def startsWord (s w : List Char) : Bool :=
  startsWithL w s &&
    (match s.drop w.length with
     | [] => true
     | c :: _ => !isWordChar c)

/-- Model of `/^(chore|ci|build|refactor)\b/.test(s)` (each alternative ends
in a word character, so the boundary reduces to the next character being
absent or a non-word character). -/
def rejectRe (s : List Char) : Bool :=
  startsWord s "chore".toList || startsWord s "ci".toList ||
    startsWord s "build".toList || startsWord s "refactor".toList

/-- Embedding of `defaultKeep` from `src/generate.js`. -/
def defaultKeep (m : List Char) : Bool :=
  let s := lowerChars m
  if startsWithL "merge".toList s then false
  else if rejectRe s then false
  else true

/-- Embedding of `keepMsg` from `src/generate.js`; the compiled user pattern
`new RegExp(keepPattern, "i")` is an opaque predicate (third-party regex
engine), `none` models a `null` `userKeep`. -/
def keepMsg (userKeep : Option (List Char → Bool)) (m : List Char) : Bool :=
  match userKeep with
  | some f => f m
  | none => defaultKeep m


/-- One rendered block: an element of `items` in `updates.json`
(`{ date, points }`). -/
structure Item where
  date : List Char
  points : List (List Char)
deriving DecidableEq

/-- One step of the source's `grouped[d].push(...)` accumulation: append the
message to the bucket of key `k`, creating the bucket at the end on first
sight (JavaScript object string keys iterate in insertion order). -/
def addToGroup (g : List (List Char × List (List Char))) (k : List Char) (m : List Char) :
    List (List Char × List (List Char)) :=
  match g with
  | [] => [(k, [m])]
  | (k', ms) :: rest =>
    if k' = k then (k', ms ++ [m]) :: rest else (k', ms) :: addToGroup rest k m

/-- The `grouped` object of `generateUpdates`, as an association list in key
insertion order. -/
def buildGroups (pairs : List (List Char × List Char)) : List (List Char × List (List Char)) :=
  pairs.foldl (fun g p => addToGroup g p.1 p.2) []

/-- First-bucket lookup in a group association list (the bucket a key's
messages are accumulated into). -/
def groupLookup (k : List Char) : List (List Char × List (List Char)) → List (List Char)
  | [] => []
  | (k', ms) :: rest => if k' = k then ms else groupLookup k rest

/-- Insertion step for the descending sort. -/
def insertDesc (x : List Char × List (List Char)) :
    List (List Char × List (List Char)) → List (List Char × List (List Char))
  | [] => [x]
  | y :: rest => if ltStr y.1 x.1 then x :: y :: rest else y :: insertDesc x rest

/-- Model of `.sort((a, b) => b[0].localeCompare(a[0]))`: sort the group
entries descending by key (keys are pairwise distinct, so every comparison
sort produces this same result). -/
def sortDesc (l : List (List Char × List (List Char))) : List (List Char × List (List Char)) :=
  l.foldr insertDesc []

/-- The freshly generated blocks of one run: group by date key, sort
descending, deduplicate each bucket keeping first occurrences
(`Array.from(new Set(msgs))`). -/
def buildBlocks (pairs : List (List Char × List Char)) : List Item :=
  (sortDesc (buildGroups pairs)).map (fun g => ⟨g.1, dedupAux [] g.2⟩)

/-- Join a list of strings with a separator; model of `Array.prototype.join`. -/
def joinSep (sep : List Char) : List (List Char) → List Char
  | [] => []
  | [x] => x
  | x :: y :: rest => x ++ sep ++ joinSep sep (y :: rest)

/-- The lines of one serialized block: `[date, ...msgs.map(m => "- " + m)]`. -/
def itemLines (it : Item) : List (List Char) :=
  it.date :: it.points.map (fun m => '-' :: ' ' :: m)

/-- One serialized block: its lines joined with `"\n"`. -/
def serializeItem (it : Item) : List Char :=
  joinSep ['\n'] (itemLines it)

/-- Serialized blocks joined with `"\n\n"` (the source's `blocks` string). -/
def serializeItems (its : List Item) : List Char :=
  joinSep ('\n' :: '\n' :: []) (its.map serializeItem)

/-- Tail of the separator regex `\n\s*\n` after its first `\n`: greedily
consume whitespace and succeed at the last reachable `\n`, returning the
remainder of the string (backtracking semantics of `\s*` followed by `\n`). -/
def matchTail : List Char → Option (List Char)
  | [] => none
  | c :: rest =>
    if c = '\n' then (matchTail rest).elim (some rest) some
    else if isWS c then matchTail rest
    else none

/-- Leftmost match of the block separator regex `/\n\s*\n/` at the head of
the string: `some r` means a separator was consumed, leaving `r`. -/
def matchSep : List Char → Option (List Char)
  | [] => none
  | c :: rest => if c = '\n' then matchTail rest else none

/-- Model of `txt.split(/\n\s*\n/)`: scan left to right, cutting at each
leftmost separator match.  Fuel is the length of the string (each step
consumes at least one character). -/
def splitSepAux : Nat → List Char → List Char → List (List Char)
  | 0, l, acc => [acc.reverse ++ l]
  | _ + 1, [], acc => [acc.reverse]
  | fuel + 1, c :: rest, acc =>
    (matchSep (c :: rest)).elim (splitSepAux fuel rest (c :: acc))
      (fun r => acc.reverse :: splitSepAux fuel r [])

/-- Model of `txt.split(/\n\s*\n/)`. -/
def splitSep (l : List Char) : List (List Char) :=
  splitSepAux l.length l []

/-- Model of `l.replace(/^- /, "")`. -/
def stripDash (l : List Char) : List Char :=
  match l with
  | '-' :: ' ' :: rest => rest
  | _ => l

/-- The parse of a non-empty canonical text into `items`
(`txt.split(/\n\s*\n/).map(...)` in `generateUpdates`). -/
def parseItems (txt : List Char) : List Item :=
  (splitSep txt).map (fun block =>
    let lines := splitNl (trimChars block)
    { date := trimChars (lines.headD []),
      points := lines.tail.map (fun l => trimChars (stripDash l)) })

/-- A fetched commit record; `dateKey` is the `date-fns`-formatted
`yyyy-MM-dd` key `format(new Date(c.date), "yyyy-MM-dd")` (the third-party
formatter is not re-modelled; its output shape is stated as hypotheses
where a claim needs it). -/
structure Commit where
  hash : List Char
  dateKey : List Char
  message : List Char
deriving DecidableEq

/-- One RSS item as handed to `feed.addItem`. -/
structure FeedItem where
  title : List Char
  itemId : List Char
  link : List Char
  pubDate : List Char
  description : List Char
deriving DecidableEq

/-- The varying inputs of the generated RSS 2.0 document (constant fields
such as the feed title and generator string are omitted; `feed.rss2()` is
deterministic in these inputs). -/
structure RssFeed where
  feedId : List Char
  feedLink : List Char
  updated : List Char
  entries : List FeedItem
deriving DecidableEq

/-- Contents of `updates.rss` on disk: the empty string written by the
force-reset, or a rendered feed. -/
inductive RssFile where
  | blank : RssFile
  | feed : RssFeed → RssFile
deriving DecidableEq

/-- The four output files inside `outDir`; `none` means the file does not
exist.  Contents are modelled structurally (see the header comment). -/
structure FSState where
  txtFile : Option (List Char)
  jsonFile : Option (List Char × List Item)
  rssFile : Option RssFile
  indexFile : Option (List (List Char))
deriving DecidableEq

/-- The file system with none of the four output files present. -/
def emptyFS : FSState :=
  ⟨none, none, none, none⟩

/-- The configuration options consumed by the modelled part of
`generateUpdates` (`confidential`/`hide` are the raw comma-separated option
strings, `[]` for an absent or empty option). -/
structure Config where
  force : Bool
  stripBranch : Bool
  confidential : List Char
  hide : List Char
  siteUrl : List Char

/-- Outcome of one run: the file system afterwards, and `some items` on
success or `none` when the run aborted with an error. -/
structure RunResult where
  fs : FSState
  items : Option (List Item)
deriving DecidableEq

/-- Lines 52-79 of `src/generate.js`: create `updates.txt` if absent; if the
index file is absent or `force` is set, reset the index, and under `force`
also reset each existing output file. -/
def initFiles (force : Bool) (now : List Char) (fs0 : FSState) : FSState :=
  let fs1 := if fs0.txtFile.isNone then { fs0 with txtFile := some [] } else fs0
  if fs1.indexFile.isNone || force then
    let fs2 := { fs1 with indexFile := some [] }
    if force then
      { fs2 with
        txtFile := match fs2.txtFile with | none => none | some _ => some [],
        jsonFile := match fs2.jsonFile with | none => none | some _ => some (now, []),
        rssFile := match fs2.rssFile with | none => none | some _ => some RssFile.blank }
    else fs2
  else fs1

/-- The commits processed in this run (`newCommits` in the source): all
filter-passing commits under `force`, otherwise the unseen filter-passing
ones. -/
def retainedCommits (force : Bool) (userKeep : Option (List Char → Bool))
    (seenList : List (List Char)) (commits : List Commit) : List Commit :=
  if force then commits.filter (fun c => keepMsg userKeep c.message)
  else commits.filter (fun c => !seenList.contains c.hash && keepMsg userKeep c.message)

/-- The `(dateKey, redacted text)` pairs fed into the grouping step
(`processMessage(c.message.trim())` keyed by the commit's date key). -/
def commitPairs (stripBranch : Bool) (confTerms hideTerms : List (List Char))
    (commits : List Commit) : List (List Char × List Char) :=
  commits.map (fun c =>
    (c.dateKey, processMessage stripBranch confTerms hideTerms (trimChars c.message)))

/-- One entry passed to `feed.addItem` for a parsed block. -/
def renderFeedEntry (siteUrl : List Char) (it : Item) : FeedItem :=
  { title := it.date,
    itemId := siteUrl ++ "/updates#".toList ++ it.date,
    link := siteUrl ++ "/updates".toList,
    pubDate := it.date,
    description := joinSep ['\n'] (it.points.map (fun p => '•' :: ' ' :: p)) }

/-- The generated feed: built from `siteUrl` and `now`, with one entry per
parsed block whose date the feed library accepts (`dateOk` abstracts the
`new Date(...)` validity check guarded by try/catch in the source). -/
def renderFeed (siteUrl : List Char) (dateOk : List Char → Bool) (now : List Char)
    (items : List Item) : RssFeed :=
  { feedId := if siteUrl ≠ [] then siteUrl ++ "/updates".toList else "updates".toList,
    feedLink := if siteUrl ≠ [] then siteUrl ++ "/updates".toList else "/updates".toList,
    updated := now,
    entries := (items.filter (fun it => dateOk it.date)).map (renderFeedEntry siteUrl) }

/-- Embedding of `generateUpdates` from `src/generate.js`.  `fetchRes = none`
models a fetch-stage failure (`checkIsRepo()` false, or `git.log`
throwing); `now` is the value of `new Date()` during the run. -/
def generateUpdates (cfg : Config) (userKeep : Option (List Char → Bool))
    (dateOk : List Char → Bool) (fetchRes : Option (List Commit))
    (now : List Char) (fs0 : FSState) : RunResult :=
  let fs1 := initFiles cfg.force now fs0
  match fetchRes with
  | none => ⟨fs1, none⟩
  | some commits =>
    let confTerms := mkTerms cfg.confidential
    let hideTerms := mkTerms cfg.hide
    let seenList := dedupAux [] (fs1.indexFile.getD [])
    let newCommits := retainedCommits cfg.force userKeep seenList commits
    let txt0 := if cfg.force then [] else trimChars (fs1.txtFile.getD [])
    let st :=
      if newCommits.isEmpty then (fs1, txt0)
      else
        let pairs := commitPairs cfg.stripBranch confTerms hideTerms newCommits
        let t := serializeItems (buildBlocks pairs) ++
          (if txt0 ≠ [] then '\n' :: '\n' :: txt0 else [])
        ({ fs1 with
             txtFile := some (trimChars t ++ ['\n']),
             indexFile := some (seenList ++ newCommits.map (fun c => c.hash)) }, t)
    let items := if st.2 = [] then [] else parseItems st.2
    ⟨{ st.1 with
         jsonFile := some (now, items),
         rssFile := some (RssFile.feed (renderFeed cfg.siteUrl dateOk now items)) },
      some items⟩


/-- The first character, if any, is not whitespace. -/
def headNonWS (s : List Char) : Bool :=
  match s with
  | [] => true
  | c :: _ => !isWS c

/-- The last character, if any, is not whitespace. -/
def lastNonWS (s : List Char) : Bool :=
  headNonWS s.reverse

/-- A well-formed canonical-text line payload: non-empty, newline-free, and
with no surrounding whitespace (equivalently, fixed by `trimChars`). -/
def goodLine (s : List Char) : Bool :=
  decide (s ≠ []) && decide ('\n' ∉ s) && headNonWS s && lastNonWS s

/-- A well-formed block: its date and every point are well-formed line
payloads.  This is the shape the pipeline itself produces for
`yyyy-MM-dd` date keys and non-empty redacted one-line messages. -/
def wfItem (it : Item) : Bool :=
  goodLine it.date && it.points.all goodLine

/-- No "lone" newline: every `'\n'` in the string is immediately followed by
a non-whitespace character.  Such a string contains no match of the block
separator regex `/\n\s*\n/`. -/
def noLoneNl : List Char → Bool
  | [] => true
  | c :: rest =>
    (if c = '\n' then headNonWS rest && decide (rest ≠ []) else true) && noLoneNl rest

lemma dropWhile_isWS_eq_self {s : List Char} (h : headNonWS s = true) :
    s.dropWhile isWS = s := by
  cases s with
  | nil => rfl
  | cons c t =>
    have hc : isWS c = false := by simpa [headNonWS] using h
    simp [List.dropWhile_cons, hc]

lemma headNonWS_dropWhile (s : List Char) : headNonWS (s.dropWhile isWS) = true := by
  induction s with
  | nil => rfl
  | cons c t ih =>
    cases hc : isWS c with
    | true => simpa [List.dropWhile_cons, hc] using ih
    | false => simp [List.dropWhile_cons, hc, headNonWS]

lemma headNonWS_of_isPrefixOf {u s : List Char} (hp : u <+: s) (h : headNonWS s = true) :
    headNonWS u = true := by
  cases u with
  | nil => rfl
  | cons c t =>
    obtain ⟨r, hr⟩ := hp
    subst hr
    simpa [headNonWS] using h

lemma isPrefixOf_trimEnd (s : List Char) : trimEnd s <+: s := by
  have h : s.reverse.dropWhile isWS <:+ s.reverse := List.dropWhile_suffix isWS
  have h2 := List.reverse_prefix.mpr h
  simpa [trimEnd] using h2

lemma headNonWS_trimChars (s : List Char) : headNonWS (trimChars s) = true :=
  headNonWS_of_isPrefixOf (isPrefixOf_trimEnd _) (headNonWS_dropWhile s)

lemma lastNonWS_trimEnd (s : List Char) : lastNonWS (trimEnd s) = true := by
  unfold lastNonWS trimEnd
  rw [List.reverse_reverse]
  exact headNonWS_dropWhile _

lemma lastNonWS_trimChars (s : List Char) : lastNonWS (trimChars s) = true :=
  lastNonWS_trimEnd _

lemma trimEnd_eq_self {s : List Char} (h : lastNonWS s = true) : trimEnd s = s := by
  unfold trimEnd
  rw [dropWhile_isWS_eq_self h]
  exact List.reverse_reverse s

lemma trimChars_eq_self {s : List Char} (h1 : headNonWS s = true) (h2 : lastNonWS s = true) :
    trimChars s = s := by
  unfold trimChars
  rw [dropWhile_isWS_eq_self h1]
  exact trimEnd_eq_self h2

lemma trimEnd_append_nl {u : List Char} (h : lastNonWS u = true) :
    trimEnd (u ++ ['\n']) = u := by
  unfold trimEnd
  rw [List.reverse_append]
  show (('\n' :: u.reverse).dropWhile isWS).reverse = u
  rw [List.dropWhile_cons]
  simp only [show isWS '\n' = true from rfl, if_true]
  rw [dropWhile_isWS_eq_self h]
  exact List.reverse_reverse u

lemma trimChars_append_nl {u : List Char} (h1 : headNonWS u = true) (h2 : lastNonWS u = true) :
    trimChars (u ++ ['\n']) = u := by
  cases u with
  | nil => rfl
  | cons c t =>
    have hc : isWS c = false := by simpa [headNonWS] using h1
    unfold trimChars
    rw [show (c :: t) ++ ['\n'] = c :: (t ++ ['\n']) by rfl, List.dropWhile_cons]
    simp only [hc, if_false]
    exact trimEnd_append_nl h2

lemma goodLine_iff {s : List Char} :
    goodLine s = true ↔
      s ≠ [] ∧ '\n' ∉ s ∧ headNonWS s = true ∧ lastNonWS s = true := by
  simp [goodLine, and_assoc]

lemma splitCharAux_no_sep (sep : Char) {l : List Char} (acc : List Char) (h : sep ∉ l) :
    splitCharAux sep l acc = [acc.reverse ++ l] := by
  induction l generalizing acc with
  | nil => simp [splitCharAux]
  | cons c t ih =>
    have h1 : sep ≠ c := fun hc => h (by simp [hc])
    have h2 : sep ∉ t := fun hm => h (by simp [hm])
    have hc : (c == sep) = false := by
      simp only [beq_eq_false_iff_ne]
      exact fun hcc => h1 hcc.symm
    rw [splitCharAux, if_neg (by simp [hc])]
    rw [ih _ h2]
    simp

lemma splitCharAux_sep (sep : Char) {l1 : List Char} (rest acc : List Char) (h : sep ∉ l1) :
    splitCharAux sep (l1 ++ sep :: rest) acc
      = (acc.reverse ++ l1) :: splitCharAux sep rest [] := by
  induction l1 generalizing acc with
  | nil => simp [splitCharAux]
  | cons c t ih =>
    have h1 : sep ≠ c := fun hc => h (by simp [hc])
    have h2 : sep ∉ t := fun hm => h (by simp [hm])
    have hc : (c == sep) = false := by
      simp only [beq_eq_false_iff_ne]
      exact fun hcc => h1 hcc.symm
    rw [List.cons_append, splitCharAux, if_neg (by simp [hc])]
    rw [ih _ h2]
    simp

lemma splitNl_joinSep {lines : List (List Char)} (hne : lines ≠ [])
    (h : ∀ l ∈ lines, ('\n' : Char) ∉ l) :
    splitNl (joinSep ['\n'] lines) = lines := by
  induction lines with
  | nil => exact absurd rfl hne
  | cons x rest ih =>
    cases rest with
    | nil =>
      have := splitCharAux_no_sep '\n' ([] : List Char) (h x (by simp))
      simpa [joinSep, splitNl] using this
    | cons y r2 =>
      have hx : ('\n' : Char) ∉ x := h x (by simp)
      unfold splitNl
      rw [show joinSep ['\n'] (x :: y :: r2) = x ++ '\n' :: joinSep ['\n'] (y :: r2) by
        simp [joinSep]]
      rw [splitCharAux_sep '\n' _ [] hx]
      rw [show splitCharAux '\n' (joinSep ['\n'] (y :: r2)) [] = splitNl (joinSep ['\n'] (y :: r2)) from rfl]
      rw [ih (by simp) (fun l hl => h l (by simp [hl]))]
      simp

lemma matchTail_nonws {d : Char} (l : List Char) (h : isWS d = false) :
    matchTail (d :: l) = none := by
  have hd : d ≠ '\n' := by
    intro e
    subst e
    simp [isWS] at h
  rw [matchTail, if_neg hd, if_neg (by simp [h])]

lemma matchTail_length : ∀ {l r : List Char}, matchTail l = some r → r.length < l.length := by
  intro l
  induction l with
  | nil => intro r h; simp [matchTail] at h
  | cons c rest ih =>
    intro r h
    rw [matchTail] at h
    by_cases hc : c = '\n'
    · rw [if_pos hc] at h
      cases hm : matchTail rest with
      | some r2 =>
        rw [hm] at h
        simp only [Option.elim_some, Option.some.injEq] at h
        subst h
        exact Nat.lt_trans (ih hm) (by simp)
      | none =>
        rw [hm] at h
        simp only [Option.elim_none, Option.some.injEq] at h
        subst h
        simp
    · rw [if_neg hc] at h
      by_cases hw : isWS c = true
      · rw [if_pos hw] at h
        exact Nat.lt_trans (ih h) (by simp)
      · rw [if_neg hw] at h
        exact absurd h (by simp)

lemma matchSep_length : ∀ {l r : List Char}, matchSep l = some r → r.length + 2 ≤ l.length := by
  intro l r h
  cases l with
  | nil => simp [matchSep] at h
  | cons c rest =>
    rw [matchSep] at h
    by_cases hc : c = '\n'
    · rw [if_pos hc] at h
      have h1 : r.length < rest.length := matchTail_length h
      simp only [List.length_cons]
      omega
    · rw [if_neg hc] at h
      exact absurd h (by simp)

lemma splitSepAux_fuel : ∀ (f g : Nat) (l acc : List Char),
    l.length ≤ f → l.length ≤ g → splitSepAux f l acc = splitSepAux g l acc := by
  intro f
  induction f with
  | zero =>
    intro g l acc hf _
    have hl : l = [] := List.eq_nil_of_length_eq_zero (Nat.le_zero.mp hf)
    subst hl
    cases g with
    | zero => rfl
    | succ g2 => simp [splitSepAux]
  | succ f2 ih =>
    intro g l acc hf hg
    cases l with
    | nil =>
      cases g with
      | zero => simp [splitSepAux]
      | succ g2 => rfl
    | cons c rest =>
      cases g with
      | zero => exact absurd hg (by simp)
      | succ g2 =>
        rw [splitSepAux, splitSepAux]
        cases hm : matchSep (c :: rest) with
        | some r =>
          have hl := matchSep_length hm
          simp only [Option.elim_some]
          have h1 : r.length ≤ f2 := by
            simp only [List.length_cons] at hf hl
            omega
          have h2 : r.length ≤ g2 := by
            simp only [List.length_cons] at hg hl
            omega
          rw [ih g2 r [] h1 h2]
        | none =>
          simp only [Option.elim_none]
          have h1 : rest.length ≤ f2 := by
            simp only [List.length_cons] at hf
            omega
          have h2 : rest.length ≤ g2 := by
            simp only [List.length_cons] at hg
            omega
          rw [ih g2 rest (c :: acc) h1 h2]

lemma matchSep_boundary {next : List Char} (h : headNonWS next = true) :
    matchSep ('\n' :: '\n' :: next) = some next := by
  rw [matchSep, if_pos rfl, matchTail, if_pos rfl]
  cases next with
  | nil => rfl
  | cons d t =>
    have hd : isWS d = false := by simpa [headNonWS] using h
    rw [matchTail_nonws _ hd]
    rfl

lemma splitSepAux_nil_acc (fuel : Nat) (acc : List Char) :
    splitSepAux fuel [] acc = [acc.reverse] := by
  cases fuel <;> simp [splitSepAux]

lemma splitSepAux_chunk : ∀ (chunk : List Char) (fuel : Nat) (rest acc : List Char),
    noLoneNl chunk = true → chunk.length ≤ fuel →
    splitSepAux fuel (chunk ++ rest) acc
      = splitSepAux (fuel - chunk.length) rest (chunk.reverse ++ acc) := by
  intro chunk
  induction chunk with
  | nil => intro fuel rest acc _ _; simp
  | cons c t ih =>
    intro fuel rest acc h hf
    cases fuel with
    | zero => exact absurd hf (by simp)
    | succ f =>
      have hlen : t.length ≤ f := by
        simp only [List.length_cons] at hf
        omega
      rw [show Nat.succ f - (c :: t).length = f - t.length by
            simp only [List.length_cons]; omega,
          show (c :: t).reverse ++ acc = t.reverse ++ (c :: acc) by simp,
          List.cons_append, splitSepAux]
      rw [noLoneNl] at h
      simp only [Bool.and_eq_true] at h
      have ht : noLoneNl t = true := h.2
      by_cases hc : c = '\n'
      · subst hc
        cases t with
        | nil => simp at h
        | cons d t' =>
          have hd : isWS d = false := by
            have h1 := h.1
            rw [if_pos rfl] at h1
            simp only [Bool.and_eq_true] at h1
            simpa [headNonWS] using h1.1
          have hms : matchSep ('\n' :: ((d :: t') ++ rest)) = none := by
            rw [matchSep, if_pos rfl, List.cons_append, matchTail_nonws _ hd]
          rw [hms, Option.elim_none]
          exact ih f rest ('\n' :: acc) ht hlen
      · have hms : matchSep (c :: (t ++ rest)) = none := by rw [matchSep, if_neg hc]
        rw [hms, Option.elim_none]
        exact ih f rest (c :: acc) ht hlen

lemma splitSepAux_single {chunk : List Char} (fuel : Nat) (h : noLoneNl chunk = true)
    (hf : chunk.length ≤ fuel) : splitSepAux fuel chunk [] = [chunk] := by
  have e := splitSepAux_chunk chunk fuel [] [] h hf
  rw [List.append_nil] at e
  rw [e, splitSepAux_nil_acc]
  simp

lemma headNonWS_append {x r : List Char} (hx : x ≠ []) (h : headNonWS x = true) :
    headNonWS (x ++ r) = true := by
  cases x with
  | nil => exact absurd rfl hx
  | cons c t => simpa [headNonWS] using h

lemma lastNonWS_append {x r : List Char} (hr : r ≠ []) (h : lastNonWS r = true) :
    lastNonWS (x ++ r) = true := by
  unfold lastNonWS at *
  rw [List.reverse_append]
  exact headNonWS_append (by simpa using hr) h

lemma joinSep_ne_nil {sep x : List Char} {rest : List (List Char)} (hx : x ≠ []) :
    joinSep sep (x :: rest) ≠ [] := by
  cases rest with
  | nil => simpa [joinSep] using hx
  | cons y r2 => simp [joinSep, hx]

lemma headNonWS_joinSep {sep x : List Char} {rest : List (List Char)}
    (hx : x ≠ []) (h : headNonWS x = true) :
    headNonWS (joinSep sep (x :: rest)) = true := by
  cases rest with
  | nil => simpa [joinSep] using h
  | cons y r2 =>
    rw [show joinSep sep (x :: y :: r2) = x ++ (sep ++ joinSep sep (y :: r2)) by
      simp [joinSep]]
    exact headNonWS_append hx h

lemma lastNonWS_joinSep {sep : List Char} : ∀ {chunks : List (List Char)},
    chunks ≠ [] → (∀ c_ ∈ chunks, c_ ≠ [] ∧ lastNonWS c_ = true) →
    lastNonWS (joinSep sep chunks) = true := by
  intro chunks
  induction chunks with
  | nil => intro h _; exact absurd rfl h
  | cons x rest ih =>
    intro _ h
    cases rest with
    | nil => simpa [joinSep] using (h x (by simp)).2
    | cons y r2 =>
      have hy : y ≠ [] := (h y (by simp)).1
      rw [show joinSep sep (x :: y :: r2) = x ++ (sep ++ joinSep sep (y :: r2)) by
        simp [joinSep]]
      apply lastNonWS_append
      · simp [joinSep_ne_nil hy]
      · exact lastNonWS_append (joinSep_ne_nil hy) (ih (by simp) (fun l hl => h l (by simp [hl])))

lemma noLoneNl_of_no_nl {s : List Char} (h : ('\n' : Char) ∉ s) : noLoneNl s = true := by
  induction s with
  | nil => rfl
  | cons c t ih =>
    have hc : c ≠ '\n' := by
      intro e
      exact h (by simp [e])
    rw [noLoneNl, if_neg hc]
    simpa using ih (fun hm => h (by simp [hm]))

lemma noLoneNl_append_line {x J : List Char} (hx : ('\n' : Char) ∉ x)
    (hJ : noLoneNl J = true) (hJne : J ≠ []) (hJh : headNonWS J = true) :
    noLoneNl (x ++ '\n' :: J) = true := by
  induction x with
  | nil =>
    rw [List.nil_append, noLoneNl, if_pos rfl]
    simp [hJ, hJh, hJne]
  | cons c t ih =>
    have hc : c ≠ '\n' := fun e => hx (by simp [e])
    rw [List.cons_append, noLoneNl, if_neg hc]
    simpa using ih (fun hm => hx (by simp [hm]))

lemma noLoneNl_joinSep_lines : ∀ {lines : List (List Char)},
    (∀ l ∈ lines, l ≠ [] ∧ ('\n' : Char) ∉ l ∧ headNonWS l = true) →
    noLoneNl (joinSep ['\n'] lines) = true := by
  intro lines h
  induction lines with
  | nil => rfl
  | cons x rest ih =>
    cases rest with
    | nil => simpa [joinSep] using noLoneNl_of_no_nl (h x (by simp)).2.1
    | cons y r2 =>
      have hrest : ∀ l ∈ y :: r2, l ≠ [] ∧ ('\n' : Char) ∉ l ∧ headNonWS l = true :=
        fun l hl => h l (by simp [hl])
      rw [show joinSep ['\n'] (x :: y :: r2) = x ++ '\n' :: joinSep ['\n'] (y :: r2) by
        simp [joinSep]]
      exact noLoneNl_append_line (h x (by simp)).2.1 (ih hrest)
        (joinSep_ne_nil (h y (by simp)).1)
        (headNonWS_joinSep (h y (by simp)).1 (h y (by simp)).2.2)

lemma splitSep_joinSep : ∀ (chunks : List (List Char)) (fuel : Nat),
    (∀ c_ ∈ chunks, noLoneNl c_ = true ∧ c_ ≠ [] ∧ headNonWS c_ = true) →
    chunks ≠ [] →
    (joinSep ['\n', '\n'] chunks).length ≤ fuel →
    splitSepAux fuel (joinSep ['\n', '\n'] chunks) [] = chunks := by
  intro chunks
  induction chunks with
  | nil => intro fuel _ hne _; exact absurd rfl hne
  | cons x rest ih =>
    intro fuel h hne hf
    cases rest with
    | nil =>
      have hx := h x (by simp)
      rw [show joinSep ['\n', '\n'] [x] = x from rfl]
      exact splitSepAux_single fuel hx.1 (by simpa [joinSep] using hf)
    | cons y r2 =>
      have hx := h x (by simp)
      have hy := h y (by simp)
      have hJh : headNonWS (joinSep ['\n', '\n'] (y :: r2)) = true :=
        headNonWS_joinSep hy.2.1 hy.2.2
      have hsplit : joinSep ['\n', '\n'] (x :: y :: r2)
          = x ++ ('\n' :: '\n' :: joinSep ['\n', '\n'] (y :: r2)) := by
        simp [joinSep]
      rw [hsplit] at hf ⊢
      rw [splitSepAux_chunk x fuel _ [] hx.1 (by
        simp only [List.length_append] at hf
        omega)]
      have hflen : (joinSep ['\n', '\n'] (y :: r2)).length + 2 ≤ fuel - x.length := by
        simp only [List.length_append, List.length_cons] at hf
        omega
      rcases hg : fuel - x.length with _ | g
      · omega
      · rw [splitSepAux, List.append_nil, matchSep_boundary hJh, Option.elim_some]
        rw [List.reverse_reverse]
        rw [ih g (fun l hl => h l (by simp [hl])) (by simp) (by omega)]

lemma goodLine_dash {m : List Char} (h : goodLine m = true) :
    ('-' :: ' ' :: m) ≠ [] ∧ ('\n' : Char) ∉ ('-' :: ' ' :: m) ∧
      headNonWS ('-' :: ' ' :: m) = true ∧ lastNonWS ('-' :: ' ' :: m) = true := by
  obtain ⟨h1, h2, _, h4⟩ := goodLine_iff.mp h
  refine ⟨by simp, by simp [h2], rfl, ?_⟩
  unfold lastNonWS
  rw [show ('-' :: ' ' :: m).reverse = m.reverse ++ [' ', '-'] by simp]
  cases hm : m.reverse with
  | nil => exact absurd (by simpa using hm) h1
  | cons d t =>
    unfold lastNonWS at h4
    rw [hm] at h4
    simpa [headNonWS] using h4

lemma itemLines_facts {it : Item} (h : wfItem it = true) :
    ∀ l ∈ itemLines it,
      l ≠ [] ∧ ('\n' : Char) ∉ l ∧ headNonWS l = true ∧ lastNonWS l = true := by
  intro l hl
  rw [wfItem, Bool.and_eq_true] at h
  rw [itemLines] at hl
  rcases List.mem_cons.mp hl with hd | hp
  · subst hd
    exact goodLine_iff.mp h.1
  · simp only [List.mem_map] at hp
    obtain ⟨p, hp1, hp2⟩ := hp
    subst hp2
    exact goodLine_dash (List.all_eq_true.mp h.2 p hp1)

lemma serializeItem_facts {it : Item} (h : wfItem it = true) :
    noLoneNl (serializeItem it) = true ∧ serializeItem it ≠ [] ∧
      headNonWS (serializeItem it) = true ∧ lastNonWS (serializeItem it) = true := by
  have hl := itemLines_facts h
  have hdate := hl it.date (by simp [itemLines])
  refine ⟨noLoneNl_joinSep_lines (fun l h2 => ⟨(hl l h2).1, (hl l h2).2.1, (hl l h2).2.2.1⟩),
    ?_, ?_, ?_⟩
  · exact joinSep_ne_nil hdate.1
  · exact headNonWS_joinSep hdate.1 hdate.2.2.1
  · exact lastNonWS_joinSep (by simp [itemLines]) (fun l h2 => ⟨(hl l h2).1, (hl l h2).2.2.2⟩)

lemma parse_serializeItem {it : Item} (h : wfItem it = true) :
    (fun block =>
      let lines := splitNl (trimChars block)
      Item.mk (trimChars (lines.headD []))
        (lines.tail.map (fun l => trimChars (stripDash l)))) (serializeItem it) = it := by
  have hf := serializeItem_facts h
  have hl := itemLines_facts h
  rw [wfItem, Bool.and_eq_true] at h
  simp only
  rw [trimChars_eq_self hf.2.2.1 hf.2.2.2]
  rw [show serializeItem it = joinSep ['\n'] (itemLines it) from rfl]
  rw [splitNl_joinSep (by simp [itemLines]) (fun l h2 => (hl l h2).2.1)]
  rw [show (itemLines it).headD [] = it.date from rfl,
      show (itemLines it).tail = it.points.map (fun m => '-' :: ' ' :: m) from rfl]
  obtain ⟨hd1, hd2, hd3, hd4⟩ := goodLine_iff.mp h.1
  rw [trimChars_eq_self hd3 hd4]
  rw [List.map_map]
  have hpts : it.points.map ((fun l => trimChars (stripDash l)) ∘ (fun m => '-' :: ' ' :: m))
      = it.points.map id := by
    apply List.map_congr_left
    intro p hp
    obtain ⟨_, _, hp3, hp4⟩ := goodLine_iff.mp (List.all_eq_true.mp h.2 p hp)
    show trimChars (stripDash ('-' :: ' ' :: p)) = p
    rw [show stripDash ('-' :: ' ' :: p) = p from rfl]
    exact trimChars_eq_self hp3 hp4
  rw [hpts, List.map_id]

lemma parseItems_serializeItems {its : List Item} (hne : its ≠ [])
    (h : ∀ it ∈ its, wfItem it = true) :
    parseItems (serializeItems its) = its := by
  unfold parseItems splitSep serializeItems
  rw [splitSep_joinSep (its.map serializeItem) _
    (by
      intro c_ hc
      simp only [List.mem_map] at hc
      obtain ⟨it, hit, he⟩ := hc
      subst he
      have hf := serializeItem_facts (h it hit)
      exact ⟨hf.1, hf.2.1, hf.2.2.1⟩)
    (by simpa using hne) (le_refl _)]
  rw [List.map_map]
  have : its.map ((fun block =>
      let lines := splitNl (trimChars block)
      Item.mk (trimChars (lines.headD []))
        (lines.tail.map (fun l => trimChars (stripDash l)))) ∘ serializeItem) = its.map id := by
    apply List.map_congr_left
    intro it hit
    exact parse_serializeItem (h it hit)
  rw [this, List.map_id]

lemma mem_dedupAux {α : Type} [DecidableEq α] :
    ∀ {l seen : List α} {a : α}, a ∈ dedupAux seen l ↔ a ∈ l ∧ a ∉ seen := by
  intro l
  induction l with
  | nil => intro seen a; simp [dedupAux]
  | cons x rest ih =>
    intro seen a
    rw [dedupAux]
    by_cases hx : x ∈ seen
    · rw [if_pos hx, ih]
      constructor
      · exact fun ⟨h1, h2⟩ => ⟨by simp [h1], h2⟩
      · rintro ⟨h1, h2⟩
        rcases List.mem_cons.mp h1 with he | hm
        · subst he; exact absurd hx h2
        · exact ⟨hm, h2⟩
    · rw [if_neg hx]
      constructor
      · intro h
        rcases List.mem_cons.mp h with he | hm
        · subst he; exact ⟨by simp, hx⟩
        · have := ih.mp hm
          exact ⟨by simp [this.1], fun hs => this.2 (by simp [hs])⟩
      · rintro ⟨h1, h2⟩
        rcases List.mem_cons.mp h1 with he | hm
        · subst he; simp
        · by_cases hax : a = x
          · subst hax; simp
          · exact List.mem_cons_of_mem _ (ih.mpr ⟨hm, by simp [hax, h2]⟩)

lemma groupLookup_addToGroup (g : List (List Char × List (List Char))) (k k' : List Char)
    (m : List Char) :
    groupLookup k' (addToGroup g k m)
      = if k' = k then groupLookup k' g ++ [m] else groupLookup k' g := by
  induction g with
  | nil =>
    by_cases h : k' = k
    · simp [addToGroup, groupLookup, h]
    · have h2 : ¬ k = k' := fun e => h e.symm
      simp [addToGroup, groupLookup, h, h2]
  | cons p rest ih =>
    obtain ⟨k2, ms⟩ := p
    by_cases h2 : k2 = k
    · subst h2
      by_cases h3 : k2 = k'
      · subst h3
        simp [addToGroup, groupLookup]
      · have h4 : ¬ k' = k2 := fun e => h3 e.symm
        simp [addToGroup, groupLookup, h3, h4]
    · by_cases h3 : k2 = k'
      · subst h3
        simp [addToGroup, groupLookup, h2, fun e : k2 = k => h2 e]
      · simp [addToGroup, groupLookup, h2, h3, ih]

lemma groupLookup_buildGroups_aux :
    ∀ (pairs : List (List Char × List Char)) (g : List (List Char × List (List Char)))
      (k : List Char),
    groupLookup k (pairs.foldl (fun g p => addToGroup g p.1 p.2) g)
      = groupLookup k g ++ (pairs.filter (fun p => p.1 = k)).map Prod.snd := by
  intro pairs
  induction pairs with
  | nil => intro g k; simp
  | cons p rest ih =>
    intro g k
    rw [List.foldl_cons, ih, groupLookup_addToGroup]
    by_cases h : k = p.1
    · rw [if_pos h, List.filter_cons, if_pos (by simp [h])]
      simp
    · rw [if_neg h, List.filter_cons, if_neg (by simp; exact fun e => h e.symm)]

lemma groupLookup_buildGroups (pairs : List (List Char × List Char)) (k : List Char) :
    groupLookup k (buildGroups pairs)
      = (pairs.filter (fun p => p.1 = k)).map Prod.snd := by
  rw [buildGroups, groupLookup_buildGroups_aux]
  simp [groupLookup]

lemma addToGroup_keys (g : List (List Char × List (List Char))) (k : List Char)
    (m : List Char) :
    (addToGroup g k m).map Prod.fst
      = if k ∈ g.map Prod.fst then g.map Prod.fst else g.map Prod.fst ++ [k] := by
  induction g with
  | nil => simp [addToGroup]
  | cons p rest ih =>
    obtain ⟨k2, ms⟩ := p
    by_cases h : k2 = k
    · subst h
      simp [addToGroup]
    · have hne : ¬ k = k2 := fun e => h e.symm
      by_cases h2 : k ∈ rest.map Prod.fst
      · simp [addToGroup, h, ih, h2, hne]
      · simp [addToGroup, h, ih, h2, hne]

lemma groupLookup_mem : ∀ {G : List (List Char × List (List Char))} {k : List Char},
    groupLookup k G ≠ [] → ∃ ms, (k, ms) ∈ G ∧ groupLookup k G = ms := by
  intro G
  induction G with
  | nil => intro k h; exact absurd rfl h
  | cons p rest ih =>
    intro k h
    obtain ⟨k2, ms⟩ := p
    by_cases h2 : k2 = k
    · subst h2
      exact ⟨ms, by simp, by simp [groupLookup]⟩
    · rw [groupLookup, if_neg h2] at h
      obtain ⟨ms2, hm, he⟩ := ih h
      exact ⟨ms2, List.mem_cons_of_mem _ hm, by rw [groupLookup, if_neg h2]; exact he⟩

lemma groupLookup_of_mem : ∀ {G : List (List Char × List (List Char))},
    (G.map Prod.fst).Nodup → ∀ {k ms}, (k, ms) ∈ G → groupLookup k G = ms := by
  intro G
  induction G with
  | nil => intro _ k ms h; simp at h
  | cons p rest ih =>
    intro hnd k ms h
    obtain ⟨k2, ms2⟩ := p
    rw [List.map_cons, List.nodup_cons] at hnd
    rcases List.mem_cons.mp h with he | hm
    · rw [Prod.mk.injEq] at he
      obtain ⟨e1, e2⟩ := he
      subst e1
      subst e2
      rw [groupLookup, if_pos rfl]
    · have hk : k2 ≠ k := by
        intro e
        subst e
        have hmm : k2 ∈ rest.map Prod.fst := List.mem_map.mpr ⟨(k2, ms), hm, rfl⟩
        exact hnd.1 hmm
      rw [groupLookup, if_neg hk]
      exact ih hnd.2 hm

lemma buildGroups_keys_nodup_aux :
    ∀ (pairs : List (List Char × List Char)) (g : List (List Char × List (List Char))),
    (g.map Prod.fst).Nodup →
    ((pairs.foldl (fun g p => addToGroup g p.1 p.2) g).map Prod.fst).Nodup := by
  intro pairs
  induction pairs with
  | nil => intro g h; simpa using h
  | cons p rest ih =>
    intro g h
    rw [List.foldl_cons]
    apply ih
    rw [addToGroup_keys]
    by_cases h2 : p.1 ∈ g.map Prod.fst
    · simpa [h2] using h
    · rw [if_neg h2]
      simp [List.nodup_append, h, h2]

lemma buildGroups_keys_nodup (pairs : List (List Char × List Char)) :
    ((buildGroups pairs).map Prod.fst).Nodup :=
  buildGroups_keys_nodup_aux pairs [] (by simp)

lemma ltStr_trans : ∀ {a b c : List Char},
    ltStr a b = true → ltStr b c = true → ltStr a c = true := by
  intro a
  induction a with
  | nil =>
    intro b c hab hbc
    cases b with
    | nil => exact absurd hab (by simp [ltStr])
    | cons y ys =>
      cases c with
      | nil => exact absurd hbc (by simp [ltStr])
      | cons z zs => rfl
  | cons x xs ih =>
    intro b c hab hbc
    cases b with
    | nil => exact absurd hab (by simp [ltStr])
    | cons y ys =>
      cases c with
      | nil => exact absurd hbc (by simp [ltStr])
      | cons z zs =>
        rw [ltStr] at hab hbc ⊢
        rcases lt_trichotomy x y with h1 | h1 | h1
        · rcases lt_trichotomy y z with h2 | h2 | h2
          · rw [if_pos (lt_trans h1 h2)]
          · subst h2
            rw [if_pos h1]
          · rw [if_neg (lt_asymm h2), if_pos h2] at hbc
            exact absurd hbc (by simp)
        · subst h1
          rw [if_neg (lt_irrefl x), if_neg (lt_irrefl x)] at hab
          rcases lt_trichotomy x z with h2 | h2 | h2
          · rw [if_pos h2]
          · subst h2
            rw [if_neg (lt_irrefl x), if_neg (lt_irrefl x)] at hbc ⊢
            exact ih hab hbc
          · rw [if_neg (lt_asymm h2), if_pos h2] at hbc
            exact absurd hbc (by simp)
        · rw [if_neg (lt_asymm h1), if_pos h1] at hab
          exact absurd hab (by simp)

lemma ltStr_connex : ∀ {a b : List Char}, a ≠ b → ltStr a b = true ∨ ltStr b a = true := by
  intro a
  induction a with
  | nil =>
    intro b h
    cases b with
    | nil => exact absurd rfl h
    | cons y ys => exact Or.inl rfl
  | cons x xs ih =>
    intro b h
    cases b with
    | nil => exact Or.inr rfl
    | cons y ys =>
      rcases lt_trichotomy x y with h1 | h1 | h1
      · exact Or.inl (by rw [ltStr, if_pos h1])
      · subst h1
        have hne : xs ≠ ys := fun e => h (by rw [e])
        rcases ih hne with h2 | h2
        · exact Or.inl (by rw [ltStr, if_neg (lt_irrefl x), if_neg (lt_irrefl x)]; exact h2)
        · exact Or.inr (by rw [ltStr, if_neg (lt_irrefl x), if_neg (lt_irrefl x)]; exact h2)
      · exact Or.inr (by rw [ltStr, if_pos h1])

lemma mem_insertDesc {x y : List Char × List (List Char)} :
    ∀ {l}, y ∈ insertDesc x l ↔ y = x ∨ y ∈ l := by
  intro l
  induction l with
  | nil => simp [insertDesc]
  | cons z rest ih =>
    rw [insertDesc]
    by_cases h : ltStr z.1 x.1 = true
    · rw [if_pos h]
      simp [List.mem_cons]
    · rw [if_neg h]
      simp only [List.mem_cons, ih]
      tauto

lemma insertDesc_perm (x : List Char × List (List Char)) :
    ∀ l, List.Perm (insertDesc x l) (x :: l) := by
  intro l
  induction l with
  | nil => simp [insertDesc]
  | cons z rest ih =>
    rw [insertDesc]
    by_cases h : ltStr z.1 x.1 = true
    · rw [if_pos h]
    · rw [if_neg h]
      exact (ih.cons z).trans (List.Perm.swap x z rest)

lemma sortDesc_perm : ∀ l, List.Perm (sortDesc l) l := by
  intro l
  induction l with
  | nil => simp [sortDesc]
  | cons x rest ih =>
    unfold sortDesc at ih ⊢
    rw [List.foldr_cons]
    exact (insertDesc_perm x _).trans (ih.cons x)

lemma insertDesc_pairwise {x : List Char × List (List Char)} :
    ∀ {l}, l.Pairwise (fun a b => ltStr b.1 a.1 = true ∨ a.1 = b.1) →
    (insertDesc x l).Pairwise (fun a b => ltStr b.1 a.1 = true ∨ a.1 = b.1) := by
  intro l
  induction l with
  | nil => intro _; simp [insertDesc]
  | cons z rest ih =>
    intro h
    rw [List.pairwise_cons] at h
    rw [insertDesc]
    by_cases hc : ltStr z.1 x.1 = true
    · rw [if_pos hc, List.pairwise_cons]
      constructor
      · intro y hy
        rcases List.mem_cons.mp hy with he | hm
        · subst he
          exact Or.inl hc
        · rcases h.1 y hm with h2 | h2
          · exact Or.inl (ltStr_trans h2 hc)
          · exact Or.inl (by rw [← h2]; exact hc)
      · exact List.pairwise_cons.mpr h
    · rw [if_neg hc, List.pairwise_cons]
      constructor
      · intro y hy
        rcases mem_insertDesc.mp hy with he | hm
        · subst he
          by_cases he2 : z.1 = y.1
          · exact Or.inr he2
          · rcases ltStr_connex he2 with h3 | h3
            · exact absurd h3 hc
            · exact Or.inl h3
        · exact h.1 y hm
      · exact ih h.2

lemma sortDesc_pairwise : ∀ l : List (List Char × List (List Char)),
    (sortDesc l).Pairwise (fun a b => ltStr b.1 a.1 = true ∨ a.1 = b.1) := by
  intro l
  induction l with
  | nil => simp [sortDesc]
  | cons x rest ih =>
    unfold sortDesc at ih ⊢
    rw [List.foldr_cons]
    exact insertDesc_pairwise ih

lemma sortDesc_strict {l : List (List Char × List (List Char))}
    (hnd : (l.map Prod.fst).Nodup) :
    (sortDesc l).Pairwise (fun a b => ltStr b.1 a.1 = true) := by
  have h1 := sortDesc_pairwise l
  have hperm : List.Perm ((sortDesc l).map Prod.fst) (l.map Prod.fst) :=
    (sortDesc_perm l).map Prod.fst
  have hnd2 : ((sortDesc l).map Prod.fst).Nodup := hperm.nodup_iff.mpr hnd
  have h2 : (sortDesc l).Pairwise (fun a b => a.1 ≠ b.1) := List.pairwise_map.mp hnd2
  refine (h1.and h2).imp ?_
  rintro a b ⟨hr, hne⟩
  rcases hr with h | h
  · exact h
  · exact absurd h hne

lemma buildBlocks_dates_pairwise (pairs : List (List Char × List Char)) :
    ((buildBlocks pairs).map Item.date).Pairwise (fun a b => ltStr b a = true) := by
  rw [buildBlocks, List.map_map, List.pairwise_map]
  exact sortDesc_strict (buildGroups_keys_nodup pairs)

lemma buildBlocks_points {pairs : List (List Char × List Char)} {it : Item}
    (hit : it ∈ buildBlocks pairs) :
    it.points = dedupAux [] ((pairs.filter (fun p => p.1 = it.date)).map Prod.snd) := by
  rw [buildBlocks] at hit
  obtain ⟨g, hg, he⟩ := List.mem_map.mp hit
  have hg2 : g ∈ buildGroups pairs := (sortDesc_perm _).subset hg
  have hlk : groupLookup g.1 (buildGroups pairs) = g.2 :=
    groupLookup_of_mem (buildGroups_keys_nodup pairs) hg2
  subst he
  show dedupAux [] g.2 = _
  rw [show (Item.mk g.1 (dedupAux [] g.2)).date = g.1 from rfl]
  rw [← groupLookup_buildGroups, hlk]

lemma buildBlocks_complete {pairs : List (List Char × List Char)} {k m : List Char}
    (h : (k, m) ∈ pairs) :
    ∃ it ∈ buildBlocks pairs, it.date = k ∧ m ∈ it.points := by
  have hlk : m ∈ groupLookup k (buildGroups pairs) := by
    rw [groupLookup_buildGroups]
    exact List.mem_map.mpr ⟨(k, m), List.mem_filter.mpr ⟨h, by simp⟩, rfl⟩
  have hne : groupLookup k (buildGroups pairs) ≠ [] := by
    intro e
    rw [e] at hlk
    simp at hlk
  obtain ⟨ms, hmem, he⟩ := groupLookup_mem hne
  have hms : m ∈ ms := he ▸ hlk
  have hsort : (k, ms) ∈ sortDesc (buildGroups pairs) := (sortDesc_perm _).symm.subset hmem
  refine ⟨Item.mk k (dedupAux [] ms), ?_, rfl, ?_⟩
  · rw [buildBlocks]
    exact List.mem_map.mpr ⟨(k, ms), hsort, rfl⟩
  · exact mem_dedupAux.mpr ⟨hms, by simp⟩

lemma initFiles_no_force {now : List Char} {fs0 : FSState} {t0 : List Char}
    {i0 : List (List Char)} (htxt : fs0.txtFile = some t0) (hidx : fs0.indexFile = some i0) :
    initFiles false now fs0 = fs0 := by
  unfold initFiles
  simp [htxt, hidx]

lemma initFiles_force_txt (now : List Char) (fs0 : FSState) :
    (initFiles true now fs0).txtFile = some [] := by
  unfold initFiles
  cases h : fs0.txtFile <;> simp [h]

lemma initFiles_force_index (now : List Char) (fs0 : FSState) :
    (initFiles true now fs0).indexFile = some [] := by
  unfold initFiles
  cases h : fs0.txtFile <;> simp [h]

/-- Claim C3: for every configuration (including `force = true`), a fetch-stage
failure aborts the run with no output file on disk modified.  This is FALSE
for `force = true`: the force-reset happens before `checkIsRepo()`, so a
pre-existing `updates.txt` has already been emptied when the fetch fails. -/
theorem fetchFail_force_clobbers :
    (generateUpdates ⟨true, false, [], [], []⟩ none (fun _ => true) none "T1".toList
        ⟨some "2024-01-01\n- x\n".toList,
         some ("T0".toList, [⟨"2024-01-01".toList, ["x".toList]⟩]),
         some (RssFile.feed ⟨"updates".toList, "/updates".toList, "T0".toList, []⟩),
         some ["h1".toList]⟩).items = none
    ∧ (generateUpdates ⟨true, false, [], [], []⟩ none (fun _ => true) none "T1".toList
        ⟨some "2024-01-01\n- x\n".toList,
         some ("T0".toList, [⟨"2024-01-01".toList, ["x".toList]⟩]),
         some (RssFile.feed ⟨"updates".toList, "/updates".toList, "T0".toList, []⟩),
         some ["h1".toList]⟩).fs.txtFile = some []
    ∧ some ([] : List Char) ≠ some "2024-01-01\n- x\n".toList := by
  refine ⟨rfl, rfl, by decide⟩

/-- Claim C3 (amended): when `force = false` and `updates.txt` and
`updates.index.json` already exist, a fetch-stage failure aborts the run
(`items = none`) and leaves the file system exactly as it was; with
`force = true` (or missing files) the pre-fetch initialization has already
modified the files, as `fetchFail_force_clobbers` shows. -/
theorem fetchFail_preserves_files (cfg : Config) (u : Option (List Char → Bool))
    (d : List Char → Bool) (now : List Char) (fs0 : FSState) (t0 : List Char)
    (i0 : List (List Char)) (hforce : cfg.force = false) (htxt : fs0.txtFile = some t0)
    (hidx : fs0.indexFile = some i0) :
    generateUpdates cfg u d none now fs0 = ⟨fs0, none⟩ := by
  unfold generateUpdates
  rw [hforce, initFiles_no_force htxt hidx]

theorem fetchFail_preserves_files_witness :
    generateUpdates ⟨false, false, [], [], []⟩ none (fun _ => true) none "T1".toList
        ⟨some "a".toList, none, none, some []⟩
      = ⟨⟨some "a".toList, none, none, some []⟩, none⟩ :=
  fetchFail_preserves_files _ _ _ _ _ "a".toList [] rfl rfl rfl

/-- Claim C8: with no user pattern, the filter rejects a message exactly when
its lowercase form starts with `"merge"` or matches
`^(chore|ci|build|refactor)\b` (word boundary: end of string or non-word
character), with the spec's three concrete vectors; with a user pattern the
keep decision is exactly that pattern's match result and the default policy
is not consulted. -/
theorem keepMsg_spec :
    (keepMsg none "Merge branch 'main'".toList = false)
    ∧ (keepMsg none "chore: bump deps".toList = false)
    ∧ (keepMsg none "Fix crash on startup".toList = true)
    ∧ (∀ (f : List Char → Bool) (m : List Char), keepMsg (some f) m = f m)
    ∧ (∀ m : List Char, defaultKeep m = false ↔
        (startsWithL "merge".toList (lowerChars m) = true
         ∨ ∃ w ∈ ["chore".toList, "ci".toList, "build".toList, "refactor".toList],
             startsWord (lowerChars m) w = true)) := by
  refine ⟨by decide, by decide, by decide, fun f m => rfl, fun m => ?_⟩
  constructor
  · intro h
    by_cases h1 : startsWithL "merge".toList (lowerChars m) = true
    · exact Or.inl h1
    · simp only [defaultKeep] at h
      rw [if_neg h1] at h
      by_cases h2 : rejectRe (lowerChars m) = true
      · right
        unfold rejectRe at h2
        simp only [Bool.or_eq_true] at h2
        rcases h2 with ((h3 | h3) | h3) | h3
        · exact ⟨_, by simp, h3⟩
        · exact ⟨_, by simp, h3⟩
        · exact ⟨_, by simp, h3⟩
        · exact ⟨_, by simp, h3⟩
      · rw [if_neg h2] at h
        exact absurd h (by simp)
  · intro h
    rcases h with h1 | ⟨w, hw, hsw⟩
    · simp only [defaultKeep]
      rw [if_pos h1]
    · have hrej : rejectRe (lowerChars m) = true := by
        simp only [List.mem_cons, List.not_mem_nil, or_false] at hw
        rcases hw with e | e | e | e
        all_goals
          subst e
          unfold rejectRe
          simp only [Bool.or_eq_true]
          tauto
      simp only [defaultKeep]
      by_cases h1 : startsWithL "merge".toList (lowerChars m) = true
      · rw [if_pos h1]
      · rw [if_neg h1, if_pos hrej]

/-- Claim C6: redaction applies branch-strip, then confidential replacement,
then hide deletion (each term list in order, guards on empty term lists
being no-ops), then trims; with the spec's three concrete vectors, the term
lists being built by `mkTerms` from the raw option strings. -/
theorem processMessage_spec :
    (processMessage false (mkTerms "aws".toList) (mkTerms [])
        "Added aws credentials".toList = "Added --confidential-- credentials".toList)
    ∧ (processMessage true (mkTerms []) (mkTerms []) "[feature]: Added X".toList
        = "Added X".toList)
    ∧ (processMessage false (mkTerms []) (mkTerms "password".toList)
        "Fixed password issues".toList = "Fixed  issues".toList)
    ∧ (∀ (sb : Bool) (cts hts : List (List Char)) (msg : List Char),
        processMessage sb cts hts msg
          = trimChars (hts.foldl (fun acc t => replaceCI acc t [])
              (cts.foldl (fun acc t => replaceCI acc t confMarker)
                (if sb then stripBranchTag msg else msg)))) := by
  refine ⟨by decide, by decide, by decide, fun sb cts hts msg => ?_⟩
  simp only [processMessage]
  by_cases hc : cts = []
  · subst hc
    by_cases hh : hts = []
    · subst hh
      simp
    · simp [hh]
  · by_cases hh : hts = []
    · subst hh
      simp [hc]
    · simp [hc, hh]

/-- Claim C7: the freshly generated blocks of one run bucket the retained
`(dateKey, text)` pairs by date key; each block's points are the
first-occurrence deduplication of that date's texts in input order, every
input pair lands in the block of its key, the blocks are strictly
descending by date key, and two same-date identical texts yield a single
point. -/
theorem buildBlocks_spec :
    (∀ pairs : List (List Char × List Char),
      ((buildBlocks pairs).map Item.date).Pairwise (fun a b => ltStr b a = true))
    ∧ (∀ (pairs : List (List Char × List Char)) (it : Item), it ∈ buildBlocks pairs →
        it.points = dedupAux [] ((pairs.filter (fun p => p.1 = it.date)).map Prod.snd))
    ∧ (∀ (pairs : List (List Char × List Char)) (k m : List Char), (k, m) ∈ pairs →
        ∃ it ∈ buildBlocks pairs, it.date = k ∧ m ∈ it.points)
    ∧ (buildBlocks [("2024-01-10".toList, "Fix x".toList),
          ("2024-01-10".toList, "Fix x".toList)]
        = [⟨"2024-01-10".toList, ["Fix x".toList]⟩]) := by
  exact ⟨buildBlocks_dates_pairwise,
    fun pairs it hit => buildBlocks_points hit,
    fun pairs k m h => buildBlocks_complete h,
    by decide⟩

theorem buildBlocks_spec_witness :
    (⟨"2024-01-10".toList, ["Fix x".toList]⟩ : Item).points
      = dedupAux [] (([("2024-01-10".toList, "Fix x".toList)].filter
          (fun p => p.1 = (⟨"2024-01-10".toList, ["Fix x".toList]⟩ : Item).date)).map Prod.snd) :=
  buildBlocks_spec.2.1 [("2024-01-10".toList, "Fix x".toList)]
    ⟨"2024-01-10".toList, ["Fix x".toList]⟩ (by decide)

/-- Claim C9: for canonical text in well-formed block format (a non-empty
sequence of blocks, each a trimmed non-empty newline-free date line followed
by `"- "`-prefixed trimmed non-empty newline-free points, blocks separated
by one blank line), parsing into `{date, points}` items and re-serializing
reproduces the text exactly; the run stores the text as `trim(text) + "\n"`
and trims it on read, which is the claim's trailing-newline normalization. -/
theorem parse_serialize_roundtrip (its : List Item) (hne : its ≠ [])
    (hwf : its.all wfItem = true) :
    parseItems (serializeItems its) = its
    ∧ serializeItems (parseItems (serializeItems its)) = serializeItems its := by
  have h := parseItems_serializeItems hne (fun it hit => List.all_eq_true.mp hwf it hit)
  exact ⟨h, by rw [h]⟩

theorem keepMsg_spec_witness :
    keepMsg (some (fun _ => true)) "Merge branch".toList
      = (fun (_ : List Char) => true) "Merge branch".toList :=
  keepMsg_spec.2.2.2.1 (fun _ => true) "Merge branch".toList

theorem parse_serialize_roundtrip_witness :
    parseItems (serializeItems [⟨"2024-01-10".toList, ["Fix a".toList, "Fix b".toList]⟩,
        ⟨"2024-01-09".toList, ["x".toList]⟩])
      = [⟨"2024-01-10".toList, ["Fix a".toList, "Fix b".toList]⟩,
        ⟨"2024-01-09".toList, ["x".toList]⟩] :=
  (parse_serialize_roundtrip _ (by decide) (by decide)).1

/-- Claim C1: the spec says the persisted seen-index after a run equals the
loaded index united with the ids of ALL fetched commits, whether or not
their message passed the keep filter.  FALSE: a fetched commit whose
message fails the filter is not recorded.  Here the only fetched commit
`h1` has message `"Merge branch x"` (rejected by the default filter), the
run succeeds, and the index is still empty instead of containing `h1`. -/
theorem seenIndex_cex :
    (generateUpdates ⟨false, false, [], [], []⟩ none (fun _ => true)
        (some [⟨"h1".toList, "2024-01-01".toList, "Merge branch x".toList⟩]) "T1".toList
        ⟨some [], none, none, some []⟩).items = some []
    ∧ (generateUpdates ⟨false, false, [], [], []⟩ none (fun _ => true)
        (some [⟨"h1".toList, "2024-01-01".toList, "Merge branch x".toList⟩]) "T1".toList
        ⟨some [], none, none, some []⟩).fs.indexFile = some []
    ∧ ¬ ("h1".toList ∈ ([] : List (List Char))) := by
  exact ⟨by decide, by decide, by decide⟩

/-- Claim C1 (amended): after every successful run the persisted index is the
post-initialization seen list extended by the ids of exactly the retained
commits (unseen and filter-passing; under `force`, all filter-passing), and
when no commit is retained the index file is not rewritten at all;
filter-rejected commits are never marked seen. -/
theorem seenIndex_update (cfg : Config) (u : Option (List Char → Bool))
    (d : List Char → Bool) (commits : List Commit) (now : List Char) (fs0 : FSState) :
    (generateUpdates cfg u d (some commits) now fs0).items.isSome = true
    ∧ (generateUpdates cfg u d (some commits) now fs0).fs.indexFile
      = (if (retainedCommits cfg.force u
              (dedupAux [] ((initFiles cfg.force now fs0).indexFile.getD [])) commits).isEmpty
         then (initFiles cfg.force now fs0).indexFile
         else some (dedupAux [] ((initFiles cfg.force now fs0).indexFile.getD [])
             ++ (retainedCommits cfg.force u
                  (dedupAux [] ((initFiles cfg.force now fs0).indexFile.getD [])) commits).map
                 (fun c => c.hash))) := by
  cases he : (retainedCommits cfg.force u
      (dedupAux [] ((initFiles cfg.force now fs0).indexFile.getD [])) commits).isEmpty
  · unfold generateUpdates
    simp [he]
  · unfold generateUpdates
    simp [he]

/-- Claim C10: the claim says that on every successful run in which no fetched
commit is both unseen and filter-passing, `updates.txt` and
`updates.index.json` are left untouched.  FALSE for `force` runs: here the
only fetched commit is rejected by the filter (so nothing is retained and
the run succeeds with the claim's premise holding — under force the reset
index is empty, every commit is unseen), yet the pre-existing non-empty
`updates.txt` has been reset to empty. -/
theorem frameEffect_cex :
    (generateUpdates ⟨true, false, [], [], []⟩ none (fun _ => true)
        (some [⟨"h1".toList, "2024-01-01".toList, "Merge branch x".toList⟩]) "T1".toList
        ⟨some "2024-01-01\n- x\n".toList, none, none, some ["h1".toList]⟩).items = some []
    ∧ (generateUpdates ⟨true, false, [], [], []⟩ none (fun _ => true)
        (some [⟨"h1".toList, "2024-01-01".toList, "Merge branch x".toList⟩]) "T1".toList
        ⟨some "2024-01-01\n- x\n".toList, none, none, some ["h1".toList]⟩).fs.txtFile = some []
    ∧ some ([] : List Char) ≠ some "2024-01-01\n- x\n".toList := by
  exact ⟨by decide, by decide, by decide⟩

/-- Claim C10 (amended): on every successful run with `force = false`, with
`updates.txt` and `updates.index.json` already on disk, in which no fetched
commit is both unseen and filter-passing, `updates.txt` and
`updates.index.json` are not written at all, while `updates.json` and
`updates.rss` are unconditionally rewritten with the run's fresh timestamp
as `updated_at` / feed build date. -/
theorem frameEffect_no_new (cfg : Config) (u : Option (List Char → Bool))
    (d : List Char → Bool) (commits : List Commit) (now : List Char) (fs0 : FSState)
    (t0 : List Char) (i0 : List (List Char)) (hforce : cfg.force = false)
    (htxt : fs0.txtFile = some t0) (hidx : fs0.indexFile = some i0)
    (hnone : retainedCommits false u (dedupAux [] i0) commits = []) :
    (generateUpdates cfg u d (some commits) now fs0).fs.txtFile = some t0
    ∧ (generateUpdates cfg u d (some commits) now fs0).fs.indexFile = some i0
    ∧ (generateUpdates cfg u d (some commits) now fs0).fs.jsonFile
      = some (now, (generateUpdates cfg u d (some commits) now fs0).items.getD [])
    ∧ (generateUpdates cfg u d (some commits) now fs0).fs.rssFile
      = some (RssFile.feed (renderFeed cfg.siteUrl d now
          ((generateUpdates cfg u d (some commits) now fs0).items.getD [])))
    ∧ (generateUpdates cfg u d (some commits) now fs0).items.isSome = true := by
  unfold generateUpdates
  rw [hforce, initFiles_no_force htxt hidx]
  simp [htxt, hidx, hnone]

theorem frameEffect_no_new_witness :
    (generateUpdates ⟨false, false, [], [], []⟩ none (fun _ => true)
        (some [⟨"h1".toList, "2024-01-01".toList, "Fix a".toList⟩]) "T2".toList
        ⟨some "2024-01-01\n- Fix a\n".toList, none, none, some ["h1".toList]⟩).fs.txtFile
      = some "2024-01-01\n- Fix a\n".toList
    ∧ (generateUpdates ⟨false, false, [], [], []⟩ none (fun _ => true)
        (some [⟨"h1".toList, "2024-01-01".toList, "Fix a".toList⟩]) "T2".toList
        ⟨some "2024-01-01\n- Fix a\n".toList, none, none, some ["h1".toList]⟩).fs.indexFile
      = some ["h1".toList] :=
  ⟨(frameEffect_no_new _ _ _ _ _ _ _ _ rfl rfl rfl (by decide)).1,
   (frameEffect_no_new _ _ _ _ _ _ _ _ rfl rfl rfl (by decide)).2.1⟩

lemma generateUpdates_force_eq (cfg : Config) (u : Option (List Char → Bool))
    (d : List Char → Bool) (commits : List Commit) (now : List Char) (fs0 : FSState)
    (hforce : cfg.force = true) :
    generateUpdates cfg u d (some commits) now fs0 =
      (let newCommits := commits.filter (fun c => keepMsg u c.message)
       let t := if newCommits.isEmpty then ([] : List Char)
         else serializeItems (buildBlocks (commitPairs cfg.stripBranch
           (mkTerms cfg.confidential) (mkTerms cfg.hide) newCommits))
       let items := if t = [] then [] else parseItems t
       ⟨⟨if newCommits.isEmpty then some [] else some (trimChars t ++ ['\n']),
         some (now, items),
         some (RssFile.feed (renderFeed cfg.siteUrl d now items)),
         if newCommits.isEmpty then some []
         else some (newCommits.map (fun c => c.hash))⟩,
        some items⟩) := by
  cases he : (commits.filter (fun c => keepMsg u c.message)).isEmpty
  · unfold generateUpdates
    rw [hforce]
    simp [initFiles_force_index, initFiles_force_txt, retainedCommits, dedupAux, he]
  · unfold generateUpdates
    rw [hforce]
    simp [initFiles_force_index, initFiles_force_txt, retainedCommits, dedupAux, he]

lemma dedupAux_ne_nil {α : Type} [DecidableEq α] {a : α} {l : List α} :
    dedupAux [] (a :: l) ≠ [] := by
  rw [dedupAux, if_neg (by simp)]
  simp

lemma addToGroup_values_ne {g : List (List Char × List (List Char))} {k m : List Char}
    (h : ∀ p ∈ g, p.2 ≠ []) : ∀ p ∈ addToGroup g k m, p.2 ≠ [] := by
  induction g with
  | nil =>
    intro p hp
    rw [addToGroup] at hp
    rcases List.mem_singleton.mp hp with e
    subst e
    simp
  | cons q rest ih =>
    intro p hp
    obtain ⟨k2, ms⟩ := q
    rw [addToGroup] at hp
    by_cases h2 : k2 = k
    · rw [if_pos h2] at hp
      rcases List.mem_cons.mp hp with e | hm
      · subst e
        simp
      · exact h p (List.mem_cons_of_mem _ hm)
    · rw [if_neg h2] at hp
      rcases List.mem_cons.mp hp with e | hm
      · subst e
        exact h _ (by simp)
      · exact ih (fun q hq => h q (List.mem_cons_of_mem _ hq)) p hm

lemma buildGroups_values_ne {pairs : List (List Char × List Char)} :
    ∀ p ∈ buildGroups pairs, p.2 ≠ [] := by
  rw [buildGroups]
  have hgen : ∀ (ps : List (List Char × List Char)) (g : List (List Char × List (List Char))),
      (∀ p ∈ g, p.2 ≠ []) →
      ∀ p ∈ ps.foldl (fun g p => addToGroup g p.1 p.2) g, p.2 ≠ [] := by
    intro ps
    induction ps with
    | nil => intro g h p hp; exact h p hp
    | cons q rest ih =>
      intro g h p hp
      rw [List.foldl_cons] at hp
      exact ih _ (addToGroup_values_ne h) p hp
  exact hgen pairs [] (by simp)

lemma buildBlocks_points_ne {pairs : List (List Char × List Char)} {it : Item}
    (hit : it ∈ buildBlocks pairs) : it.points ≠ [] := by
  rw [buildBlocks] at hit
  obtain ⟨g, hg, he⟩ := List.mem_map.mp hit
  have hg2 : g ∈ buildGroups pairs := (sortDesc_perm _).subset hg
  have hne := buildGroups_values_ne g hg2
  subst he
  show dedupAux [] g.2 ≠ []
  cases hv : g.2 with
  | nil => exact absurd hv hne
  | cons a l => exact dedupAux_ne_nil

lemma buildBlocks_wf {pairs : List (List Char × List Char)}
    (h : ∀ p ∈ pairs, goodLine p.1 = true ∧ goodLine p.2 = true) :
    ∀ it ∈ buildBlocks pairs, wfItem it = true := by
  intro it hit
  rw [wfItem, Bool.and_eq_true]
  have hpts := buildBlocks_points hit
  constructor
  · have hne : it.points ≠ [] := buildBlocks_points_ne hit
    rw [hpts] at hne
    have hfil : (pairs.filter (fun p => p.1 = it.date)) ≠ [] := by
      intro e
      rw [e] at hne
      exact hne rfl
    cases hf : pairs.filter (fun p => p.1 = it.date) with
    | nil => exact absurd hf hfil
    | cons q rest =>
      have hq : q ∈ pairs.filter (fun p => p.1 = it.date) := by
        rw [hf]
        simp
      have h2 := List.mem_filter.mp hq
      have h3 : q.1 = it.date := by simpa using h2.2
      rw [← h3]
      exact (h q h2.1).1
  · rw [List.all_eq_true]
    intro p hp
    rw [hpts] at hp
    have hm := (mem_dedupAux.mp hp).1
    obtain ⟨q, hq, he⟩ := List.mem_map.mp hm
    have h2 := List.mem_filter.mp hq
    rw [← he]
    exact (h q h2.1).2

lemma buildBlocks_ne_nil {pairs : List (List Char × List Char)} (h : pairs ≠ []) :
    buildBlocks pairs ≠ [] := by
  cases pairs with
  | nil => exact absurd rfl h
  | cons q rest =>
    have hq : (q.1, q.2) ∈ q :: rest := by simp
    obtain ⟨it, hit, _⟩ := buildBlocks_complete hq
    intro e
    rw [e] at hit
    simp at hit

lemma serializeItems_ne_nil {its : List Item} (hne : its ≠ [])
    (hwf : ∀ it ∈ its, wfItem it = true) : serializeItems its ≠ [] := by
  cases its with
  | nil => exact absurd rfl hne
  | cons it rest =>
    rw [serializeItems, List.map_cons]
    exact joinSep_ne_nil (serializeItem_facts (hwf it (by simp))).2.1

/-- Claim C5: with `force = true` the prior seen-index and canonical text are
ignored entirely: the run's outcome is independent of the previous on-disk
state (outputs and index are overwritten, not merged), the rendered items
are exactly the fresh blocks built from all filter-passing fetched commits,
every filter-passing fetched commit contributes its redacted message to the
block of its date key, the index is overwritten with exactly the
filter-passing ids, and when at least one fetched commit passes the filter
the output is non-empty even if the prior index contained every fetched id.
Hypotheses: date keys are `yyyy-MM-dd`-shaped `date-fns` outputs and the
redacted messages of filter-passing commits are non-empty one-line strings
(the shapes the pipeline produces). -/
theorem forced_rebuild_spec (cfg : Config) (u : Option (List Char → Bool))
    (d : List Char → Bool) (commits : List Commit) (now : List Char) (fs0 : FSState)
    (hforce : cfg.force = true)
    (hwf : ∀ c ∈ commits, keepMsg u c.message = true →
      goodLine c.dateKey = true ∧
      goodLine (processMessage cfg.stripBranch (mkTerms cfg.confidential) (mkTerms cfg.hide)
        (trimChars c.message)) = true) :
    (∀ fs' : FSState, generateUpdates cfg u d (some commits) now fs0
        = generateUpdates cfg u d (some commits) now fs')
    ∧ (generateUpdates cfg u d (some commits) now fs0).items
      = some (buildBlocks (commitPairs cfg.stripBranch (mkTerms cfg.confidential)
          (mkTerms cfg.hide) (commits.filter (fun c => keepMsg u c.message))))
    ∧ (∀ c ∈ commits, keepMsg u c.message = true →
        ∃ it ∈ (generateUpdates cfg u d (some commits) now fs0).items.getD [],
          it.date = c.dateKey ∧
          processMessage cfg.stripBranch (mkTerms cfg.confidential) (mkTerms cfg.hide)
            (trimChars c.message) ∈ it.points)
    ∧ ((∃ c ∈ commits, keepMsg u c.message = true) →
        (generateUpdates cfg u d (some commits) now fs0).items ≠ some [])
    ∧ (generateUpdates cfg u d (some commits) now fs0).fs.indexFile
      = some ((commits.filter (fun c => keepMsg u c.message)).map (fun c => c.hash)) := by
  have hpair : ∀ p ∈ commitPairs cfg.stripBranch (mkTerms cfg.confidential) (mkTerms cfg.hide)
      (commits.filter (fun c => keepMsg u c.message)),
      goodLine p.1 = true ∧ goodLine p.2 = true := by
    intro p hp
    rw [commitPairs] at hp
    obtain ⟨c, hc, he⟩ := List.mem_map.mp hp
    have h2 := List.mem_filter.mp hc
    subst he
    exact hwf c h2.1 h2.2
  have hitems : (generateUpdates cfg u d (some commits) now fs0).items
      = some (buildBlocks (commitPairs cfg.stripBranch (mkTerms cfg.confidential)
          (mkTerms cfg.hide) (commits.filter (fun c => keepMsg u c.message)))) := by
    rw [generateUpdates_force_eq cfg u d commits now fs0 hforce]
    cases he : (commits.filter (fun c => keepMsg u c.message)).isEmpty
    · have hne : commits.filter (fun c => keepMsg u c.message) ≠ [] := by
        intro e
        rw [e] at he
        simp at he
      have hpne : commitPairs cfg.stripBranch (mkTerms cfg.confidential) (mkTerms cfg.hide)
          (commits.filter (fun c => keepMsg u c.message)) ≠ [] := by
        rw [commitPairs]
        simpa using hne
      have hbne := buildBlocks_ne_nil hpne
      have hbwf := buildBlocks_wf hpair
      have hsne := serializeItems_ne_nil hbne hbwf
      simp only [he, Bool.false_eq_true, if_false]
      rw [if_neg hsne, parseItems_serializeItems hbne hbwf]
    · have he2 : commits.filter (fun c => keepMsg u c.message) = [] := List.isEmpty_iff.mp he
      simp [he, he2, commitPairs, buildBlocks, buildGroups, sortDesc]
  refine ⟨?_, hitems, ?_, ?_, ?_⟩
  · intro fs'
    rw [generateUpdates_force_eq cfg u d commits now fs0 hforce,
        generateUpdates_force_eq cfg u d commits now fs' hforce]
  · intro c hc hkeep
    rw [hitems]
    have hcf : c ∈ commits.filter (fun c => keepMsg u c.message) :=
      List.mem_filter.mpr ⟨hc, hkeep⟩
    have hpm : (c.dateKey, processMessage cfg.stripBranch (mkTerms cfg.confidential)
        (mkTerms cfg.hide) (trimChars c.message)) ∈
        commitPairs cfg.stripBranch (mkTerms cfg.confidential) (mkTerms cfg.hide)
          (commits.filter (fun c => keepMsg u c.message)) := by
      rw [commitPairs]
      exact List.mem_map.mpr ⟨c, hcf, rfl⟩
    exact buildBlocks_complete hpm
  · rintro ⟨c, hc, hkeep⟩
    rw [hitems]
    have hpne : commitPairs cfg.stripBranch (mkTerms cfg.confidential) (mkTerms cfg.hide)
        (commits.filter (fun c => keepMsg u c.message)) ≠ [] := by
      rw [commitPairs]
      have hfne : commits.filter (fun c => keepMsg u c.message) ≠ [] := by
        intro e
        have hm : c ∈ commits.filter (fun c => keepMsg u c.message) :=
          List.mem_filter.mpr ⟨hc, hkeep⟩
        rw [e] at hm
        simp at hm
      simpa using hfne
    intro e
    rw [Option.some.injEq] at e
    exact buildBlocks_ne_nil hpne e
  · rw [generateUpdates_force_eq cfg u d commits now fs0 hforce]
    cases he : (commits.filter (fun c => keepMsg u c.message)).isEmpty
    · simp [he]
    · have he2 : commits.filter (fun c => keepMsg u c.message) = [] := List.isEmpty_iff.mp he
      simp [he, he2]

theorem forced_rebuild_spec_witness :
    (generateUpdates ⟨true, false, [], [], []⟩ none (fun _ => true)
        (some [⟨"h1".toList, "2024-01-10".toList, "Fix a".toList⟩]) "T1".toList
        ⟨some "old".toList, none, none, some ["h1".toList]⟩).items
      = some (buildBlocks (commitPairs false (mkTerms []) (mkTerms [])
          ([⟨"h1".toList, "2024-01-10".toList, "Fix a".toList⟩].filter
            (fun c => keepMsg none c.message))))
    ∧ (generateUpdates ⟨true, false, [], [], []⟩ none (fun _ => true)
        (some [⟨"h1".toList, "2024-01-10".toList, "Fix a".toList⟩]) "T1".toList
        ⟨some "old".toList, none, none, some ["h1".toList]⟩).items ≠ some [] := by
  have h := forced_rebuild_spec ⟨true, false, [], [], []⟩ none (fun _ => true)
    [⟨"h1".toList, "2024-01-10".toList, "Fix a".toList⟩] "T1".toList
    ⟨some "old".toList, none, none, some ["h1".toList]⟩ rfl (by decide)
  exact ⟨h.2.1, h.2.2.2.1 ⟨⟨"h1".toList, "2024-01-10".toList, "Fix a".toList⟩,
    by decide, by decide⟩⟩

lemma splitSepAux_join_old : ∀ (chunks : List (List Char)) (fuel : Nat) (old : List Char),
    (∀ c_ ∈ chunks, noLoneNl c_ = true ∧ c_ ≠ [] ∧ headNonWS c_ = true) →
    chunks ≠ [] → old ≠ [] → headNonWS old = true →
    (joinSep ['\n', '\n'] chunks ++ '\n' :: '\n' :: old).length ≤ fuel →
    splitSepAux fuel (joinSep ['\n', '\n'] chunks ++ '\n' :: '\n' :: old) []
      = chunks ++ splitSepAux old.length old [] := by
  intro chunks
  induction chunks with
  | nil => intro fuel old _ hne _ _ _; exact absurd rfl hne
  | cons x rest ih =>
    intro fuel old h hne hone hoh hf
    cases rest with
    | nil =>
      have hx := h x (by simp)
      rw [show joinSep ['\n', '\n'] [x] = x from rfl] at hf ⊢
      rw [splitSepAux_chunk x fuel _ [] hx.1
        (by simp only [List.length_append, List.length_cons] at hf; omega)]
      have hflen : old.length + 2 ≤ fuel - x.length := by
        simp only [List.length_append, List.length_cons] at hf
        omega
      rcases hg : fuel - x.length with _ | g
      · omega
      · rw [splitSepAux, List.append_nil, matchSep_boundary hoh, Option.elim_some,
            List.reverse_reverse,
            splitSepAux_fuel g old.length old [] (by omega) (le_refl _)]
        rfl
    | cons y r2 =>
      have hx := h x (by simp)
      have hy := h y (by simp)
      have hJh : headNonWS (joinSep ['\n', '\n'] (y :: r2)) = true :=
        headNonWS_joinSep hy.2.1 hy.2.2
      have hsplit : joinSep ['\n', '\n'] (x :: y :: r2) ++ '\n' :: '\n' :: old
          = x ++ ('\n' :: '\n' :: (joinSep ['\n', '\n'] (y :: r2) ++ '\n' :: '\n' :: old)) := by
        simp [joinSep]
      rw [hsplit] at hf ⊢
      rw [splitSepAux_chunk x fuel _ [] hx.1
        (by simp only [List.length_append, List.length_cons] at hf; omega)]
      have hflen : (joinSep ['\n', '\n'] (y :: r2) ++ '\n' :: '\n' :: old).length + 2
          ≤ fuel - x.length := by
        simp only [List.length_append, List.length_cons] at hf ⊢
        omega
      rcases hg : fuel - x.length with _ | g
      · omega
      · have hJh2 : headNonWS (joinSep ['\n', '\n'] (y :: r2) ++ '\n' :: '\n' :: old) = true :=
          headNonWS_append (joinSep_ne_nil hy.2.1) hJh
        rw [splitSepAux, List.append_nil, matchSep_boundary hJh2, Option.elim_some,
            List.reverse_reverse,
            ih g old (fun l hl => h l (by simp [hl])) (by simp) hone hoh
              (by simp only [List.length_append, List.length_cons] at hflen ⊢; omega)]
        rfl

lemma parseItems_append_old {its : List Item} {old : List Char}
    (hne : its ≠ []) (hwf : ∀ it ∈ its, wfItem it = true)
    (hone : old ≠ []) (hoh : headNonWS old = true) :
    parseItems (serializeItems its ++ '\n' :: '\n' :: old) = its ++ parseItems old := by
  have hchunks : ∀ c_ ∈ its.map serializeItem,
      noLoneNl c_ = true ∧ c_ ≠ [] ∧ headNonWS c_ = true := by
    intro c_ hc
    obtain ⟨it, hit, he⟩ := List.mem_map.mp hc
    subst he
    have hfq := serializeItem_facts (hwf it hit)
    exact ⟨hfq.1, hfq.2.1, hfq.2.2.1⟩
  have hmap : (its.map serializeItem).map
      (fun block =>
        let lines := splitNl (trimChars block)
        Item.mk (trimChars (lines.headD []))
          (lines.tail.map (fun l => trimChars (stripDash l)))) = its := by
    have h1 := parseItems_serializeItems hne hwf
    unfold parseItems splitSep serializeItems at h1
    rw [splitSep_joinSep (its.map serializeItem) _ hchunks (by simpa using hne)
      (le_refl _)] at h1
    exact h1
  unfold parseItems splitSep serializeItems
  rw [splitSepAux_join_old (its.map serializeItem) _ old hchunks (by simpa using hne)
    hone hoh (le_refl _)]
  rw [List.map_append, hmap]

lemma generateUpdates_new_eq (cfg : Config) (u : Option (List Char → Bool))
    (d : List Char → Bool) (commits : List Commit) (now : List Char) (fs0 : FSState)
    (t0 : List Char) (i0 : List (List Char)) (hforce : cfg.force = false)
    (htxt : fs0.txtFile = some t0) (hidx : fs0.indexFile = some i0)
    (hne : retainedCommits false u (dedupAux [] i0) commits ≠ []) :
    generateUpdates cfg u d (some commits) now fs0 =
      (let pairs := commitPairs cfg.stripBranch (mkTerms cfg.confidential) (mkTerms cfg.hide)
         (retainedCommits false u (dedupAux [] i0) commits)
       let t := serializeItems (buildBlocks pairs) ++
         (if trimChars t0 ≠ [] then '\n' :: '\n' :: trimChars t0 else [])
       let items := if t = [] then [] else parseItems t
       ⟨⟨some (trimChars t ++ ['\n']),
         some (now, items),
         some (RssFile.feed (renderFeed cfg.siteUrl d now items)),
         some (dedupAux [] i0 ++ (retainedCommits false u (dedupAux [] i0) commits).map
           (fun c => c.hash))⟩,
        some items⟩) := by
  unfold generateUpdates
  rw [hforce, initFiles_no_force htxt hidx]
  have he : (retainedCommits false u (dedupAux [] i0) commits).isEmpty = false := by
    cases h : (retainedCommits false u (dedupAux [] i0) commits).isEmpty
    · rfl
    · exact absurd (List.isEmpty_iff.mp h) hne
  simp [htxt, hidx, he]

/-- Claim C4: the claim says the items of the rendered JSON are globally
sorted descending by date, including items carried over from previous runs.
FALSE: freshly generated blocks are prepended in front of the existing
text, so a newly fetched commit with an older date than an existing block
yields an out-of-order pair.  Here the prior text holds a 2024-01-10 block,
a new commit dated 2024-01-05 is prepended, and in the resulting items the
2024-01-10 block has the greater date string but appears after the
2024-01-05 block. -/
theorem ordering_cex :
    (generateUpdates ⟨false, false, [], [], []⟩ none (fun _ => true)
        (some [⟨"h2".toList, "2024-01-05".toList, "Fix b".toList⟩,
               ⟨"h1".toList, "2024-01-10".toList, "Fix a".toList⟩]) "T2".toList
        ⟨some "2024-01-10\n- Fix a\n".toList, none, none, some ["h1".toList]⟩).items
      = some [⟨"2024-01-05".toList, ["Fix b".toList]⟩,
              ⟨"2024-01-10".toList, ["Fix a".toList]⟩]
    ∧ ltStr "2024-01-05".toList "2024-01-10".toList = true := by
  exact ⟨by decide, by decide⟩

/-- Claim C4 (amended): on a successful non-force run that retains at least
one commit, the rendered items are exactly the freshly generated blocks
followed by the parse of the previous canonical text in its previous
order; the fresh prefix is strictly descending by date key, but the whole
list need not be globally sorted (see `ordering_cex`).  Hypotheses on date
keys and redacted messages as in `forced_rebuild_spec`. -/
theorem ordering_spec (cfg : Config) (u : Option (List Char → Bool))
    (d : List Char → Bool) (commits : List Commit) (now : List Char) (fs0 : FSState)
    (t0 : List Char) (i0 : List (List Char)) (hforce : cfg.force = false)
    (htxt : fs0.txtFile = some t0) (hidx : fs0.indexFile = some i0)
    (hne : retainedCommits false u (dedupAux [] i0) commits ≠ [])
    (hwf : ∀ c ∈ commits, keepMsg u c.message = true →
      goodLine c.dateKey = true ∧
      goodLine (processMessage cfg.stripBranch (mkTerms cfg.confidential) (mkTerms cfg.hide)
        (trimChars c.message)) = true) :
    (generateUpdates cfg u d (some commits) now fs0).items
      = some (buildBlocks (commitPairs cfg.stripBranch (mkTerms cfg.confidential)
            (mkTerms cfg.hide) (retainedCommits false u (dedupAux [] i0) commits))
          ++ (if trimChars t0 = [] then [] else parseItems (trimChars t0)))
    ∧ ((buildBlocks (commitPairs cfg.stripBranch (mkTerms cfg.confidential)
          (mkTerms cfg.hide) (retainedCommits false u (dedupAux [] i0) commits))).map
          Item.date).Pairwise (fun a b => ltStr b a = true) := by
  have hpair : ∀ p ∈ commitPairs cfg.stripBranch (mkTerms cfg.confidential)
      (mkTerms cfg.hide) (retainedCommits false u (dedupAux [] i0) commits),
      goodLine p.1 = true ∧ goodLine p.2 = true := by
    intro p hp
    rw [commitPairs] at hp
    obtain ⟨c, hc, he⟩ := List.mem_map.mp hp
    simp only [retainedCommits, Bool.false_eq_true, if_false] at hc
    obtain ⟨hcm, hck⟩ := List.mem_filter.mp hc
    rw [Bool.and_eq_true] at hck
    subst he
    exact hwf c hcm hck.2
  have hpne : commitPairs cfg.stripBranch (mkTerms cfg.confidential) (mkTerms cfg.hide)
      (retainedCommits false u (dedupAux [] i0) commits) ≠ [] := by
    rw [commitPairs]
    simpa using hne
  have hbwf := buildBlocks_wf hpair
  have hbne := buildBlocks_ne_nil hpne
  have hsne := serializeItems_ne_nil hbne hbwf
  refine ⟨?_, buildBlocks_dates_pairwise _⟩
  rw [generateUpdates_new_eq cfg u d commits now fs0 t0 i0 hforce htxt hidx hne]
  by_cases hOld : trimChars t0 = []
  · simp only [hOld, ne_eq, not_true_eq_false, if_false, List.append_nil]
    rw [if_neg hsne, parseItems_serializeItems hbne hbwf]
    simp
  · simp only [hOld, ne_eq, not_false_eq_true, if_true]
    have htne : serializeItems (buildBlocks (commitPairs cfg.stripBranch
        (mkTerms cfg.confidential) (mkTerms cfg.hide)
        (retainedCommits false u (dedupAux [] i0) commits)))
          ++ '\n' :: '\n' :: trimChars t0 ≠ [] := by
      intro e
      exact hsne (List.append_eq_nil.mp e).1
    rw [if_neg htne, parseItems_append_old hbne hbwf hOld (headNonWS_trimChars t0)]
    simp

theorem ordering_spec_witness :
    (generateUpdates ⟨false, false, [], [], []⟩ none (fun _ => true)
        (some [⟨"h2".toList, "2024-01-11".toList, "Fix b".toList⟩]) "T2".toList
        ⟨some "2024-01-10\n- Fix a\n".toList, none, none, some ["h1".toList]⟩).items
      = some (buildBlocks (commitPairs false (mkTerms []) (mkTerms [])
            (retainedCommits false none (dedupAux [] ["h1".toList])
              [⟨"h2".toList, "2024-01-11".toList, "Fix b".toList⟩]))
          ++ (if trimChars "2024-01-10\n- Fix a\n".toList = [] then []
              else parseItems (trimChars "2024-01-10\n- Fix a\n".toList))) :=
  (ordering_spec _ _ _ _ _ _ _ _ rfl rfl rfl (by decide) (by decide)).1

lemma generateUpdates_nonew_eq (cfg : Config) (u : Option (List Char → Bool))
    (d : List Char → Bool) (commits : List Commit) (now : List Char) (fs0 : FSState)
    (t0 : List Char) (i0 : List (List Char)) (hforce : cfg.force = false)
    (htxt : fs0.txtFile = some t0) (hidx : fs0.indexFile = some i0)
    (hr : retainedCommits false u (dedupAux [] i0) commits = []) :
    generateUpdates cfg u d (some commits) now fs0 =
      (let items := if trimChars t0 = [] then [] else parseItems (trimChars t0)
       ⟨⟨some t0, some (now, items),
         some (RssFile.feed (renderFeed cfg.siteUrl d now items)), some i0⟩,
        some items⟩) := by
  unfold generateUpdates
  rw [hforce, initFiles_no_force htxt hidx]
  simp [htxt, hidx, hr]

lemma retained_second_run (u : Option (List Char → Bool)) (i0 : List (List Char))
    (commits : List Commit) :
    retainedCommits false u
      (dedupAux [] (dedupAux [] i0
        ++ (retainedCommits false u (dedupAux [] i0) commits).map (fun c => c.hash)))
      commits = [] := by
  simp only [retainedCommits, Bool.false_eq_true, if_false]
  rw [List.filter_eq_nil_iff]
  intro c hc h
  rw [Bool.and_eq_true] at h
  obtain ⟨h1, h2⟩ := h
  rw [Bool.not_eq_true'] at h1
  have hmem : c.hash ∈ dedupAux [] (dedupAux [] i0
      ++ (commits.filter
          (fun c => !(dedupAux [] i0).contains c.hash && keepMsg u c.message)).map
        (fun c => c.hash)) := by
    rw [mem_dedupAux]
    refine ⟨?_, by simp⟩
    rw [List.mem_append]
    by_cases hin : c.hash ∈ dedupAux [] i0
    · exact Or.inl hin
    · right
      rw [List.mem_map]
      refine ⟨c, ?_, rfl⟩
      rw [List.mem_filter]
      refine ⟨hc, ?_⟩
      rw [Bool.and_eq_true]
      refine ⟨?_, h2⟩
      rw [Bool.not_eq_true']
      cases hcon : (dedupAux [] i0).contains c.hash
      · rfl
      · exact absurd (List.mem_of_elem_eq_true hcon) hin
  have h3 : (dedupAux [] (dedupAux [] i0
      ++ (commits.filter
          (fun c => !(dedupAux [] i0).contains c.hash && keepMsg u c.message)).map
        (fun c => c.hash))).contains c.hash = true := List.elem_eq_true_of_mem hmem
  rw [h1] at h3
  exact absurd h3 (by simp)

lemma serializeItems_head {its : List Item} (hne : its ≠ [])
    (hwf : ∀ it ∈ its, wfItem it = true) : headNonWS (serializeItems its) = true := by
  cases its with
  | nil => exact absurd rfl hne
  | cons it rest =>
    rw [serializeItems, List.map_cons]
    have hf := serializeItem_facts (hwf it (by simp))
    exact headNonWS_joinSep hf.2.1 hf.2.2.1

lemma serializeItems_last {its : List Item} (hne : its ≠ [])
    (hwf : ∀ it ∈ its, wfItem it = true) : lastNonWS (serializeItems its) = true := by
  rw [serializeItems]
  apply lastNonWS_joinSep (by simpa using hne)
  intro c_ hc
  obtain ⟨it, hit, he⟩ := List.mem_map.mp hc
  subst he
  have hf := serializeItem_facts (hwf it hit)
  exact ⟨hf.2.1, hf.2.2.2⟩

lemma trim_run_text {its : List Item} (t0 : List Char)
    (hne : its ≠ []) (hwf : ∀ it ∈ its, wfItem it = true) :
    trimChars (serializeItems its ++
        (if trimChars t0 ≠ [] then '\n' :: '\n' :: trimChars t0 else [])) =
      serializeItems its ++
        (if trimChars t0 ≠ [] then '\n' :: '\n' :: trimChars t0 else []) := by
  by_cases hOld : trimChars t0 = []
  · simp only [hOld, ne_eq, not_true_eq_false, if_false, List.append_nil]
    exact trimChars_eq_self (serializeItems_head hne hwf) (serializeItems_last hne hwf)
  · simp only [hOld, ne_eq, not_false_eq_true, if_true]
    apply trimChars_eq_self
    · exact headNonWS_append (serializeItems_ne_nil hne hwf) (serializeItems_head hne hwf)
    · apply lastNonWS_append (by simp)
      have h1 : lastNonWS (trimChars t0) = true := lastNonWS_trimChars t0
      have h2 : ('\n' :: '\n' :: trimChars t0) = ['\n', '\n'] ++ trimChars t0 := rfl
      rw [h2]
      exact lastNonWS_append hOld h1

/-- Claim C2: two consecutive runs with identical configuration and no new
commits are claimed to produce byte-identical `updates.json`/`updates.rss`.
FALSE: both files embed the run's wall-clock instant (`updated_at`, feed
build date), so runs at different instants differ.  Concretely the same
one-commit repository run at `T1` and re-run at `T2` stores
`(T2, items)` in `updates.json` where the first run stored `(T1, items)`. -/
theorem idempotence_cex :
    (generateUpdates ⟨false, false, [], [], []⟩ none (fun _ => true)
        (some [⟨"h1".toList, "2024-01-10".toList, "Fix a".toList⟩]) "T2".toList
        (generateUpdates ⟨false, false, [], [], []⟩ none (fun _ => true)
          (some [⟨"h1".toList, "2024-01-10".toList, "Fix a".toList⟩]) "T1".toList
          emptyFS).fs).items = some [⟨"2024-01-10".toList, ["Fix a".toList]⟩]
    ∧ (generateUpdates ⟨false, false, [], [], []⟩ none (fun _ => true)
        (some [⟨"h1".toList, "2024-01-10".toList, "Fix a".toList⟩]) "T2".toList
        (generateUpdates ⟨false, false, [], [], []⟩ none (fun _ => true)
          (some [⟨"h1".toList, "2024-01-10".toList, "Fix a".toList⟩]) "T1".toList
          emptyFS).fs).fs.jsonFile
      = some ("T2".toList, [⟨"2024-01-10".toList, ["Fix a".toList]⟩])
    ∧ (generateUpdates ⟨false, false, [], [], []⟩ none (fun _ => true)
        (some [⟨"h1".toList, "2024-01-10".toList, "Fix a".toList⟩]) "T1".toList
        emptyFS).fs.jsonFile
      = some ("T1".toList, [⟨"2024-01-10".toList, ["Fix a".toList]⟩])
    ∧ (("T2".toList, [⟨"2024-01-10".toList, ["Fix a".toList]⟩])
        ≠ (("T1".toList, [⟨"2024-01-10".toList, ["Fix a".toList]⟩])
            : List Char × List Item)) := by
  exact ⟨by decide, by decide, by decide, by decide⟩

/-- Claim C2 (amended): a second run with identical configuration and fetch
leaves `updates.txt` and `updates.index.json` byte-identical, renders the
same items, and rewrites `updates.json` and `updates.rss` identical to the
first run's except for the fresh `updated_at` timestamp / feed build date
(byte-identical exactly when the two timestamps coincide).  Hypotheses:
both state files exist before the first run, and date keys / redacted
messages are well-shaped as in `forced_rebuild_spec`. -/
theorem idempotence_spec (cfg : Config) (u : Option (List Char → Bool))
    (d : List Char → Bool) (commits : List Commit) (now1 now2 : List Char) (fs0 : FSState)
    (t0 : List Char) (i0 : List (List Char))
    (htxt : fs0.txtFile = some t0) (hidx : fs0.indexFile = some i0)
    (hwf : ∀ c ∈ commits, keepMsg u c.message = true →
      goodLine c.dateKey = true ∧
      goodLine (processMessage cfg.stripBranch (mkTerms cfg.confidential) (mkTerms cfg.hide)
        (trimChars c.message)) = true) :
    (generateUpdates cfg u d (some commits) now2
        (generateUpdates cfg u d (some commits) now1 fs0).fs).fs.txtFile
      = (generateUpdates cfg u d (some commits) now1 fs0).fs.txtFile
    ∧ (generateUpdates cfg u d (some commits) now2
        (generateUpdates cfg u d (some commits) now1 fs0).fs).fs.indexFile
      = (generateUpdates cfg u d (some commits) now1 fs0).fs.indexFile
    ∧ (generateUpdates cfg u d (some commits) now2
        (generateUpdates cfg u d (some commits) now1 fs0).fs).items
      = (generateUpdates cfg u d (some commits) now1 fs0).items
    ∧ (generateUpdates cfg u d (some commits) now2
        (generateUpdates cfg u d (some commits) now1 fs0).fs).fs.jsonFile
      = some (now2, (generateUpdates cfg u d (some commits) now1 fs0).items.getD [])
    ∧ (generateUpdates cfg u d (some commits) now2
        (generateUpdates cfg u d (some commits) now1 fs0).fs).fs.rssFile
      = some (RssFile.feed (renderFeed cfg.siteUrl d now2
          ((generateUpdates cfg u d (some commits) now1 fs0).items.getD []))) := by
  cases hF : cfg.force with
  | true =>
    rw [generateUpdates_force_eq cfg u d commits now1 fs0 hF]
    rw [generateUpdates_force_eq cfg u d commits now2 _ hF]
    exact ⟨rfl, rfl, rfl, rfl, rfl⟩
  | false =>
    by_cases hr : retainedCommits false u (dedupAux [] i0) commits = []
    · have h1 := generateUpdates_nonew_eq cfg u d commits now1 fs0 t0 i0 hF htxt hidx hr
      have h2 := generateUpdates_nonew_eq cfg u d commits now2
        (generateUpdates cfg u d (some commits) now1 fs0).fs t0 i0 hF
        (by rw [h1]) (by rw [h1]) hr
      rw [h2, h1]
      exact ⟨rfl, rfl, rfl, rfl, rfl⟩
    · have hpair : ∀ p ∈ commitPairs cfg.stripBranch (mkTerms cfg.confidential)
          (mkTerms cfg.hide) (retainedCommits false u (dedupAux [] i0) commits),
          goodLine p.1 = true ∧ goodLine p.2 = true := by
        intro p hp
        rw [commitPairs] at hp
        obtain ⟨c, hc, he⟩ := List.mem_map.mp hp
        simp only [retainedCommits, Bool.false_eq_true, if_false] at hc
        obtain ⟨hcm, hck⟩ := List.mem_filter.mp hc
        rw [Bool.and_eq_true] at hck
        subst he
        exact hwf c hcm hck.2
      have hpne : commitPairs cfg.stripBranch (mkTerms cfg.confidential) (mkTerms cfg.hide)
          (retainedCommits false u (dedupAux [] i0) commits) ≠ [] := by
        rw [commitPairs]
        simpa using hr
      have hbwf := buildBlocks_wf hpair
      have hbne := buildBlocks_ne_nil hpne
      have h1 := generateUpdates_new_eq cfg u d commits now1 fs0 t0 i0 hF htxt hidx hr
      have htt := trim_run_text t0 hbne hbwf
      have h2 := generateUpdates_nonew_eq cfg u d commits now2
        (generateUpdates cfg u d (some commits) now1 fs0).fs
        (trimChars (serializeItems (buildBlocks (commitPairs cfg.stripBranch
            (mkTerms cfg.confidential) (mkTerms cfg.hide)
            (retainedCommits false u (dedupAux [] i0) commits)))
          ++ (if trimChars t0 ≠ [] then '\n' :: '\n' :: trimChars t0 else [])) ++ ['\n'])
        (dedupAux [] i0 ++ (retainedCommits false u (dedupAux [] i0) commits).map
          (fun c => c.hash))
        hF (by rw [h1]) (by rw [h1]) (retained_second_run u i0 commits)
      rw [h2, h1]
      rw [trimChars_append_nl (headNonWS_trimChars _) (lastNonWS_trimChars _)]
      simp only [htt, Option.getD_some]
      exact ⟨trivial, trivial, trivial, trivial, trivial⟩

theorem idempotence_spec_witness :
    (generateUpdates ⟨false, false, [], [], []⟩ none (fun _ => true)
        (some [⟨"h1".toList, "2024-01-10".toList, "Fix a".toList⟩]) "T2".toList
        (generateUpdates ⟨false, false, [], [], []⟩ none (fun _ => true)
          (some [⟨"h1".toList, "2024-01-10".toList, "Fix a".toList⟩]) "T1".toList
          ⟨some [], none, none, some []⟩).fs).fs.txtFile
      = (generateUpdates ⟨false, false, [], [], []⟩ none (fun _ => true)
          (some [⟨"h1".toList, "2024-01-10".toList, "Fix a".toList⟩]) "T1".toList
          ⟨some [], none, none, some []⟩).fs.txtFile
    ∧ (generateUpdates ⟨false, false, [], [], []⟩ none (fun _ => true)
        (some [⟨"h1".toList, "2024-01-10".toList, "Fix a".toList⟩]) "T2".toList
        (generateUpdates ⟨false, false, [], [], []⟩ none (fun _ => true)
          (some [⟨"h1".toList, "2024-01-10".toList, "Fix a".toList⟩]) "T1".toList
          ⟨some [], none, none, some []⟩).fs).items
      = (generateUpdates ⟨false, false, [], [], []⟩ none (fun _ => true)
          (some [⟨"h1".toList, "2024-01-10".toList, "Fix a".toList⟩]) "T1".toList
          ⟨some [], none, none, some []⟩).items := by
  have h := idempotence_spec ⟨false, false, [], [], []⟩ none (fun _ => true)
    [⟨"h1".toList, "2024-01-10".toList, "Fix a".toList⟩] "T1".toList "T2".toList
    ⟨some [], none, none, some []⟩ [] [] rfl rfl (by decide)
  exact ⟨h.1, h.2.2.1⟩
